import Mathlib

/-!
Shallow embedding of the filename-clustering core of `script.py`
(repository `AI_FileOrganizer`) together with proofs about it.

Strings are modelled as Lean `String` (a list of characters); Python's
regular-expression operations are translated character-by-character for the
specific patterns appearing in the source; Python floats are modelled as `ℚ`;
Python `dict` / `defaultdict` (insertion-ordered, update-in-place) is modelled
by insertion-ordered association lists.
-/

namespace FileOrg

/-! ### Character classes used by the regexes of `script.py` -/

/-- Characters matched by the regex class `\s` (ASCII model, as Python
whitespace: space, tab, newline, carriage return, vertical tab, form feed). -/
def isPySpace (c : Char) : Bool :=
  c = ' ' || c = '\t' || c = '\n' || c = '\r' || c = '\x0b' || c = '\x0c'

/-- Characters matched by `\w` (ASCII model): letters, digits, underscore. -/
def isWordChar (c : Char) : Bool :=
  c.isAlpha || c.isDigit || c = '_'

/-- Characters matched by `[a-z0-9]` (first class of the sequence regex in
`extract_common_patterns`, line 157 of script.py). -/
def isSeqChar (c : Char) : Bool :=
  ('a' ≤ c && c ≤ 'z') || c.isDigit

/-- Characters matched by `[_\-\s]` (connector class of the sequence regex). -/
def isSeqSep (c : Char) : Bool :=
  c = '_' || c = '-' || isPySpace c

/-- Code points of the non-digit, non-whitespace characters of the class
removed by `get_file_base_name` (line 60 of script.py):
`_ - ( ) [ ] @ # $ % ^ & * ! ~ + = | LBRACE RBRACE : ; ' " < > ? / ,`. -/
def normStripCodes : List Nat :=
  [95, 45, 40, 41, 91, 93, 64, 35, 36, 37, 94, 38, 42, 33, 126, 43, 61, 124,
   123, 125, 58, 59, 39, 34, 60, 62, 63, 47, 44]

/-- Characters matched by the class
`[\d_\-\s()\[\]@#$%^&*!~+=|LBRACE RBRACE:;'"<>?/,]` of `get_file_base_name`. -/
def isNormStripChar (c : Char) : Bool :=
  c.isDigit || isPySpace c || normStripCodes.contains c.toNat

/-- Characters matched by `[\d_\-\s()]` in `create_group_name_from_files`
(line 241 of script.py). -/
def isCgnStripChar (c : Char) : Bool :=
  c.isDigit || c = '_' || c = '-' || isPySpace c || c = '(' || c = ')'

/-! ### Basic string transformations -/

/-- Worker for `replaceRuns`: the flag records whether the previous character
belonged to the current run of `p`-characters. -/
def replaceRunsGo (p : Char → Bool) : Bool → List Char → List Char
  | _, [] => []
  | inRun, c :: cs =>
    if p c then
      if inRun then replaceRunsGo p true cs else ' ' :: replaceRunsGo p true cs
    else c :: replaceRunsGo p false cs

/-- Replace every maximal run of characters satisfying `p` by a single space:
the effect of `re.sub(r'[class]+', ' ', s)`. -/
def replaceRuns (p : Char → Bool) (cs : List Char) : List Char :=
  replaceRunsGo p false cs

/-- Replace every character satisfying `p` by a space (the effect of
`re.sub(r'[^class]', " ", s)` which substitutes single characters). -/
def blankOut (p : Char → Bool) (cs : List Char) : List Char :=
  cs.map (fun c => if p c then ' ' else c)

/-- Python `str.strip()`: remove leading and trailing whitespace. -/
def stripSp (cs : List Char) : List Char :=
  ((cs.dropWhile isPySpace).reverse.dropWhile isPySpace).reverse

/-- Worker for `splitWs`: `acc` is the current word, reversed. -/
def splitWsGo : List Char → List Char → List (List Char)
  | acc, [] => if acc.isEmpty then [] else [acc.reverse]
  | acc, c :: cs =>
    if isPySpace c then
      if acc.isEmpty then splitWsGo [] cs else acc.reverse :: splitWsGo [] cs
    else splitWsGo (c :: acc) cs

/-- Python `str.split()` with no argument: split on whitespace runs,
discarding empty pieces. -/
def splitWs (cs : List Char) : List (List Char) :=
  splitWsGo [] cs

/-- Lower-case a character list (Python `str.lower()`, ASCII model). -/
def lowerL (cs : List Char) : List Char :=
  cs.map Char.toLower

/-- The base-name part of `os.path.splitext(p)[0]` for a plain file name (no
path separators): split at the last dot, except when every character before
that dot is itself a dot (then there is no extension). -/
def splitextBaseL (cs : List Char) : List Char :=
  match (cs.reverse.findIdx? (· = '.')) with
  | none => cs
  | some r =>
    let i := cs.length - 1 - r
    if (cs.take i).all (· = '.') then cs else cs.take i

/-- String wrapper for `splitextBaseL`. -/
def splitextBase (s : String) : String :=
  String.mk (splitextBaseL s.data)

/-- Python `str.capitalize()`: first character upper-cased, the rest
lower-cased (ASCII model). -/
def pyCapitalize : List Char → List Char
  | [] => []
  | c :: cs => c.toUpper :: lowerL cs

/-- Python `str.title()` (ASCII model): a letter directly after a letter is
lower-cased, any other letter is upper-cased. -/
def pyTitleGo : Bool → List Char → List Char
  | _, [] => []
  | prevCased, c :: cs =>
    if c.isAlpha then (if prevCased then c.toLower else c.toUpper) :: pyTitleGo true cs
    else c :: pyTitleGo false cs

/-- Python `str.title()` on a string. -/
def pyTitle (s : String) : String :=
  String.mk (pyTitleGo false s.data)

/-- Python slicing `s[:n]`. -/
def takeStr (n : ℕ) (s : String) : String :=
  String.mk (s.data.take n)

/-- Python `sep.join(parts)`. -/
def joinWith (sep : String) (parts : List String) : String :=
  String.mk (List.intercalate sep.data (parts.map String.data))

/-- Python `needle in hay` substring containment on strings. -/
def strContains (hay needle : String) : Bool :=
  (List.range (hay.data.length + 1)).any
    (fun i => needle.data.isPrefixOf (hay.data.drop i))

/-- Python `min(strings)` (lexicographic by code point); `""` on the empty
list, which the source never passes. -/
def minString : List String → String
  | [] => ""
  | f :: fs => fs.foldl (fun m x => if x.data < m.data then x else m) f

/-! ### Insertion-ordered association lists (the model of Python `dict`) -/

/-- Lookup in an association list (first matching key). -/
def alistLookup {β : Type} : List (String × β) → String → Option β
  | [], _ => none
  | p :: d, k => if p.1 = k then some p.2 else alistLookup d k

/-- Python `d[k] = v`: update in place if the key is present (keeping its
position), otherwise append at the end. -/
def alistInsert {β : Type} : List (String × β) → String → β → List (String × β)
  | [], k, v => [(k, v)]
  | p :: d, k, v => if p.1 = k then (k, v) :: d else p :: alistInsert d k v

/-- Python `defaultdict(list); d[k].append(x)`. -/
def alistAppend {β : Type} : List (String × List β) → String → β → List (String × List β)
  | [], k, x => [(k, [x])]
  | p :: d, k, x => if p.1 = k then (p.1, p.2 ++ [x]) :: d else p :: alistAppend d k x

/-- Python `defaultdict(int); d[k] += 1`. -/
def alistBump : List (String × ℕ) → String → List (String × ℕ)
  | [], k => [(k, 1)]
  | p :: d, k => if p.1 = k then (p.1, p.2 + 1) :: d else p :: alistBump d k

/-- The keys of an association list. -/
def alistKeys {β : Type} (d : List (String × β)) : List String :=
  d.map Prod.fst

/-! ### The name normalizer and the group-name functions -/

/-- Embeds `get_file_base_name` (script.py lines 56-61): strip the extension,
lower-case, replace every run of digits, separators and punctuation by a
single space, and strip the result. -/
def get_file_base_name (filename : String) : String :=
  String.mk (stripSp (replaceRuns isNormStripChar (lowerL (splitextBaseL filename.data))))

/-- Modelled from the spec: Python's built-in `hash` on strings (a per-process
salted SipHash, not reproducible across runs and not part of src/) is modelled
as a fixed deterministic polynomial hash; the claims only depend on the
fallback name being a function of the original key. -/
def pyHash (s : String) : ℕ :=
  s.data.foldl (fun h c => (h * 31 + c.toNat) % 1000003) 7

/-- The sanitized candidate name computed by `sanitize_folder_name`
(script.py lines 44-50) before the empty/oversized check: every character
outside `[a-zA-Z0-9\s]` becomes a space, whitespace runs collapse to one
space, the ends are stripped, and each word is capitalized. -/
def sanitizedCore (folder_name : String) : String :=
  let s1 := blankOut (fun c => !(c.isAlpha || c.isDigit || isPySpace c)) folder_name.data
  let s2 := replaceRuns isPySpace s1
  let s3 := stripSp s2
  String.mk (List.intercalate [' '] ((splitWs s3).map pyCapitalize))

/-- Embeds `sanitize_folder_name` (script.py lines 34-54). -/
def sanitize_folder_name (folder_name : String) : String :=
  let sanitized := sanitizedCore folder_name
  if sanitized = "" || 255 < sanitized.length then
    "Group_" ++ toString (pyHash folder_name % 10000)
  else sanitized

/-- Stable insertion of `x` into a descending-sorted list: `x` goes before
the first element strictly below it, hence after all earlier elements with an
equal key. -/
def insertByDesc {α : Type} (keyLt : α → α → Bool) (x : α) : List α → List α
  | [] => [x]
  | y :: ys => if keyLt y x then x :: y :: ys else y :: insertByDesc keyLt x ys

/-- Python's stable `sort` with `reverse=True` (descending by key, ties in
original order), as a left-to-right stable insertion sort. -/
def sortByDesc {α : Type} (keyLt : α → α → Bool) (l : List α) : List α :=
  l.foldl (fun acc x => insertByDesc keyLt x acc) []

/-- Embeds `create_group_name_from_files` (script.py lines 231-261). -/
def create_group_name_from_files (files : List String) : String :=
  match files with
  | [] => "Miscellaneous"
  | _ :: _ =>
    let common_parts : List (List Char) := files.foldl (fun acc file =>
      acc ++ splitWs (replaceRuns isCgnStripChar (splitextBaseL file.data))) []
    let word_counts : List (String × ℕ) := common_parts.foldl (fun d w =>
      if 3 ≤ w.length then alistBump d (String.mk (lowerL w)) else d) []
    if word_counts.isEmpty then takeStr 30 (splitextBase (minString files))
    else
      let common_words := sortByDesc (fun a b => decide (a.2 < b.2)) word_counts
      takeStr 50 (joinWith "_" ((common_words.take 3).map (fun e => pyTitle e.1)))

/-! ### difflib.SequenceMatcher (the similarity metric of `find_similar_files`)

The source calls `difflib.SequenceMatcher(None, base1, base2).ratio()`
(script.py line 115). The embedding below follows CPython's `difflib.py`:
`b2j` position table with the autojunk rule for popular elements, the
`find_longest_match` dynamic scan with its four extension loops, the
divide-and-conquer accumulation of matching blocks, and
`ratio = 2*M/(len(a)+len(b))` with the empty-input special case. -/

/-- Autojunk: with `isjunk = None`, an element of `b` is treated as junk when
`b` has at least 200 elements and the element occurs more than
`len(b) // 100 + 1` times. -/
def bjunkChar (b : List Char) (c : Char) : Bool :=
  200 ≤ b.length && b.length / 100 + 1 < b.count c

/-- The `b2j` table: increasing positions of `c` in `b`, empty for junk. -/
def b2j (b : List Char) (c : Char) : List ℕ :=
  if bjunkChar b c then []
  else (List.range b.length).filter (fun j => b.get? j = some c)

/-- Inner loop of `find_longest_match`: walk the candidate `j` positions for
one `i`, building `newj2len` and updating the best block. -/
def flmScanJ (j2len : ℕ → ℕ) (i : ℕ) :
    List ℕ → (ℕ → ℕ) → (ℕ × ℕ × ℕ) → ((ℕ → ℕ) × (ℕ × ℕ × ℕ))
  | [], nj, best => (nj, best)
  | j :: js, nj, best =>
    let k := (if j = 0 then 0 else j2len (j - 1)) + 1
    let nj2 := fun x => if x = j then k else nj x
    let best2 := if best.2.2 < k then (i + 1 - k, j + 1 - k, k) else best
    flmScanJ j2len i js nj2 best2

/-- Outer loop of `find_longest_match` over the `i` range. -/
def flmLoop (a b : List Char) (blo bhi : ℕ) :
    List ℕ → (ℕ → ℕ) → (ℕ × ℕ × ℕ) → (ℕ × ℕ × ℕ)
  | [], _, best => best
  | i :: is, j2len, best =>
    let js := (b2j b (a.getD i ' ')).filter (fun j => blo ≤ j && j < bhi)
    let r := flmScanJ j2len i js (fun _ => 0) best
    flmLoop a b blo bhi is r.1 r.2

/-- Worker for `extendL`: each iteration moves the left cursor down by one,
so an initial fuel of `i` bounds the loop. -/
def extendLGo (a b : List Char) (alo blo : ℕ) (wantJunk : Bool) :
    ℕ → ℕ × ℕ × ℕ → ℕ × ℕ × ℕ
  | 0, x => x
  | fuel + 1, (i, j, sz) =>
    if alo < i ∧ blo < j ∧ bjunkChar b (b.getD (j - 1) ' ') = wantJunk ∧
        a.getD (i - 1) ' ' = b.getD (j - 1) ' ' then
      extendLGo a b alo blo wantJunk fuel (i - 1, j - 1, sz + 1)
    else (i, j, sz)

/-- Extension loop towards the left: while both cursors can move left and the
junk status of `b[bestj-1]` equals `wantJunk` and the characters agree, grow
the block. The loop runs at most `i` times since `alo < i` decreases. -/
def extendL (a b : List Char) (alo blo : ℕ) (wantJunk : Bool)
    (x : ℕ × ℕ × ℕ) : ℕ × ℕ × ℕ :=
  extendLGo a b alo blo wantJunk x.1 x

/-- Worker for `extendR`: each iteration increases `sz` while `i + sz < ahi`,
so an initial fuel of `ahi` bounds the loop. -/
def extendRGo (a b : List Char) (ahi bhi : ℕ) (wantJunk : Bool) :
    ℕ → ℕ × ℕ × ℕ → ℕ × ℕ × ℕ
  | 0, x => x
  | fuel + 1, (i, j, sz) =>
    if i + sz < ahi ∧ j + sz < bhi ∧ bjunkChar b (b.getD (j + sz) ' ') = wantJunk ∧
        a.getD (i + sz) ' ' = b.getD (j + sz) ' ' then
      extendRGo a b ahi bhi wantJunk fuel (i, j, sz + 1)
    else (i, j, sz)

/-- Extension loop towards the right, symmetric to `extendL`. -/
def extendR (a b : List Char) (ahi bhi : ℕ) (wantJunk : Bool)
    (x : ℕ × ℕ × ℕ) : ℕ × ℕ × ℕ :=
  extendRGo a b ahi bhi wantJunk ahi x

/-- The method `SequenceMatcher.find_longest_match` on the window
`a[alo:ahi]`, `b[blo:bhi]`. -/
def findLongestMatch (a b : List Char) (alo ahi blo bhi : ℕ) : ℕ × ℕ × ℕ :=
  let best0 := flmLoop a b blo bhi (List.range' alo (ahi - alo)) (fun _ => 0) (alo, blo, 0)
  extendR a b ahi bhi true
    (extendL a b alo blo true
      (extendR a b ahi bhi false
        (extendL a b alo blo false best0)))

/-- Worker for `matchesSum`: divide-and-conquer on a fuel that bounds the
window measure `(ahi - alo) + (bhi - blo)`. The recursion guards carry bound
checks that always hold for the values `findLongestMatch` returns; together
with `k ≠ 0` they force the measure of each sub-window strictly below the
current one, so the fuel never runs out when it starts at `measure + 1`. -/
def matchesSumGo (a b : List Char) : ℕ → ℕ → ℕ → ℕ → ℕ → ℕ
  | 0, _, _, _, _ => 0
  | fuel + 1, alo, ahi, blo, bhi =>
    match findLongestMatch a b alo ahi blo bhi with
    | (i, j, k) =>
      if k = 0 then 0
      else
        k +
        (if alo < i ∧ blo < j ∧ i + k ≤ ahi ∧ j ≤ bhi then
          matchesSumGo a b fuel alo i blo j else 0) +
        (if i + k < ahi ∧ j + k < bhi ∧ alo ≤ i ∧ blo ≤ j then
          matchesSumGo a b fuel (i + k) ahi (j + k) bhi else 0)

/-- Total size of all matching blocks on a window, by the divide-and-conquer
of `get_matching_blocks`. -/
def matchesSum (a b : List Char) (alo ahi blo bhi : ℕ) : ℕ :=
  matchesSumGo a b ((ahi - alo) + (bhi - blo) + 1) alo ahi blo bhi

/-- The value `SequenceMatcher(None, a, b).ratio()`: `2*M / (len(a)+len(b))`, and `1`
when both strings are empty (`_calculate_ratio`). -/
def similarityScore (a b : String) : ℚ :=
  let la := a.data.length
  let lb := b.data.length
  if la + lb = 0 then 1
  else (2 * (matchesSum a.data b.data 0 la 0 lb) : ℚ) / (la + lb)

/-! ### Pattern extraction (`extract_common_patterns`, script.py lines 128-173) -/

/-- Worker for `tokenRuns`: the state holds the current token and the
separator run after it, both reversed, or `none` before the first token. -/
def tokenRunsGo (w : Char → Bool) :
    Option (List Char × List Char) → List Char → List (List Char × List Char)
  | none, [] => []
  | some (t, sep), [] => [(t.reverse, sep.reverse)]
  | none, c :: cs =>
    if w c then tokenRunsGo w (some ([c], [])) cs else tokenRunsGo w none cs
  | some (t, sep), c :: cs =>
    if w c then
      if sep.isEmpty then tokenRunsGo w (some (c :: t, [])) cs
      else (t.reverse, sep.reverse) :: tokenRunsGo w (some ([c], [])) cs
    else tokenRunsGo w (some (t, c :: sep)) cs

/-- Split a character list into its maximal runs of `w`-characters, each run
paired with the separator run that follows it. -/
def tokenRuns (w : Char → Bool) (cs : List Char) : List (List Char × List Char) :=
  tokenRunsGo w none cs

/-- The text a matched chain stands for: tokens joined by their original
separator runs (the last separator is not part of the match). -/
def chainText : List (List Char × List Char) → List Char
  | [] => []
  | [(t, _)] => t
  | (t, s) :: rest => t ++ s ++ chainText rest

/-- Whether a chain may continue across this separator run: it must be
non-empty and consist only of `pureSep` characters. -/
def sepLinks (pureSep : Char → Bool) (sep : List Char) : Bool :=
  !sep.isEmpty && sep.all pureSep

/-- Generic single pass for the two chain-matching regexes of
`extract_common_patterns`: walk the token list, growing the current chain
(kept reversed) while the previous separator links and the chain is below
`maxT` tokens; a closed chain of at least 2 tokens is a match, and scanning
resumes with the tokens after it. `start` decides whether a token may open a
chain (the length bound on the first segment of the sequence regex). -/
def chainScan (pureSep : Char → Bool) (start : List Char → Bool) (maxT : ℕ) :
    List (List Char × List Char) → List (List Char × List Char) → List (List Char)
  | chain, [] => if 2 ≤ chain.length then [chainText chain.reverse] else []
  | chain, (t, sep) :: rest =>
    if chain.isEmpty then
      if start t then
        if sepLinks pureSep sep ∧ 1 < maxT then chainScan pureSep start maxT [(t, sep)] rest
        else chainScan pureSep start maxT [] rest
      else chainScan pureSep start maxT [] rest
    else
      let chain2 := (t, sep) :: chain
      if sepLinks pureSep sep ∧ chain2.length < maxT then
        chainScan pureSep start maxT chain2 rest
      else
        (if 2 ≤ chain2.length then [chainText chain2.reverse] else []) ++
          chainScan pureSep start maxT [] rest

/-- Matches of `\b(\w+\s+\w+(?:\s+\w+){0,3})\b` via `re.findall`: chains
of 2 to 5 word tokens joined by pure-whitespace separator runs. -/
def phraseScan (toks : List (List Char × List Char)) : List (List Char) :=
  chainScan isPySpace (fun _ => true) 5 [] toks

/-- Matches of `([a-z0-9]{n,}(?:[_\-\s]+[a-z0-9]+){1,3})` via `re.findall`:
a first token of length at least `n` followed by 1 to 3 further tokens over
pure `[_\-\s]` separator runs. -/
def seqScan (n : ℕ) (toks : List (List Char × List Char)) : List (List Char) :=
  chainScan isSeqSep (fun t => n ≤ t.length) 4 [] toks

/-- The candidate dictionary of `extract_common_patterns` (lines 140-159):
for each file, count word tokens of length at least `min_length`, whitespace
phrases of string length at least `min_length`, and separator-joined
sequences, in that order. -/
def patternsDict (file_names : List String) (min_length : ℕ) : List (String × ℕ) :=
  file_names.foldl (fun d name =>
    let base := lowerL (splitextBaseL name.data)
    let wordToks := tokenRuns isWordChar base
    let words := (wordToks.map Prod.fst).filter (fun t => min_length ≤ t.length)
    let d1 := words.foldl (fun d w => alistBump d (String.mk w)) d
    let phrases := (phraseScan wordToks).filter (fun p => min_length ≤ p.length)
    let d2 := phrases.foldl (fun d p => alistBump d (String.mk p)) d1
    let seqs := seqScan min_length (tokenRuns isSeqChar base)
    seqs.foldl (fun d q => alistBump d (String.mk q)) d2) []

/-- The occurrence count `extract_common_patterns` accumulates for a
candidate pattern. -/
def patternCount (file_names : List String) (min_length : ℕ) (p : String) : ℕ :=
  (alistLookup (patternsDict file_names min_length) p).getD 0

/-- The relevance formula of lines 166-168:
`(len(pattern)/20) * min(count/num_files, 0.5) * count`. -/
def relevanceScore (patLen cnt numFiles : ℕ) : ℚ :=
  ((patLen : ℚ) / 20) * min ((cnt : ℚ) / (numFiles : ℚ)) (1 / 2) * (cnt : ℚ)

/-- Embeds `extract_common_patterns` (script.py lines 128-173): survivors of
the count filter are scored and the list is sorted by descending relevance
(Python's stable `sort` with `reverse=True`). -/
def extract_common_patterns (file_names : List String) (min_length : ℕ) :
    List (String × ℚ) :=
  let scores := (patternsDict file_names min_length).foldl (fun acc e =>
    if 2 ≤ e.2 ∧ min_length ≤ e.1.length then
      acc ++ [(e.1, relevanceScore e.1.length e.2 file_names.length)]
    else acc) []
  sortByDesc (fun x y => decide (x.2 < y.2)) scores

/-! ### find_similar_files (script.py lines 63-126)

The input list comes from `os.listdir`, so it never contains duplicates; the
`base_names` dict comprehension of line 75 is therefore a plain map and
`name_groups` can be built by folding over the input list directly. -/

/-- The first pass dictionary (lines 82-85): group files by non-empty
normalized key, in input order. -/
def name_groups (file_names : List String) : List (String × List String) :=
  file_names.foldl (fun d f =>
    if get_file_base_name f = "" then d
    else alistAppend d (get_file_base_name f) f) []

/-- The exact-match clusters (lines 88-92): every key shared by at least two
files becomes a group keyed by its lexicographically smallest file. -/
def exactGroupsOf (file_names : List String) : List (String × List String) :=
  (name_groups file_names).foldl (fun sg e =>
    if 2 ≤ e.2.length then alistInsert sg (minString e.2) e.2 else sg) []

/-- The `processed` set after the exact pass (membership-only use). -/
def exactProcessed (file_names : List String) : List String :=
  ((exactGroupsOf file_names).map Prod.snd).flatten

/-- The `remaining` list of line 95. -/
def exactRemaining (file_names : List String) : List String :=
  file_names.filter (fun f => !(exactProcessed file_names).contains f)

/-- One step of the inner scan of the fuzzy pass (lines 105-119): skip
consumed files, apply the length prefilter
`abs(len(base1)-len(base2)) > min(len(base1), len(base2))`, and join the
cluster when the similarity reaches the threshold. -/
def fuzzyScanStep (threshold : ℚ) (base1 : String) (acc : List String × List String)
    (file2 : String) : List String × List String :=
  if file2 ∈ acc.2 then acc
  else
    let base2 := get_file_base_name file2
    if min base1.length base2.length <
        max base1.length base2.length - min base1.length base2.length then acc
    else if threshold ≤ similarityScore base1 base2 then
      (acc.1 ++ [file2], acc.2 ++ [file2])
    else acc

/-- The fuzzy pass (lines 97-124): a single greedy left-to-right scan with a
shared `processed` set; a cluster is emitted (keyed by its smallest member)
exactly when it gained at least one partner. Returns the updated groups
dictionary and the final `processed` set. -/
def fuzzyGo (threshold : ℚ) :
    List String → List String → List (String × List String) →
    List (String × List String) × List String
  | [], processed, groups => (groups, processed)
  | file1 :: rest, processed, groups =>
    if file1 ∈ processed then fuzzyGo threshold rest processed groups
    else
      let s := rest.foldl (fuzzyScanStep threshold (get_file_base_name file1))
        ([file1], processed)
      if 2 ≤ s.1.length then
        fuzzyGo threshold rest (s.2 ++ [file1]) (alistInsert groups (minString s.1) s.1)
      else fuzzyGo threshold rest s.2 groups

/-- Embeds `find_similar_files` (script.py lines 63-126). -/
def find_similar_files (file_names : List String) (threshold : ℚ) :
    List (String × List String) :=
  (fuzzyGo threshold (exactRemaining file_names) (exactProcessed file_names)
    (exactGroupsOf file_names)).1

/-! ### The grouping pipeline (`group_files_by_similarity`, lines 263-447)

Only the pure planning part is embedded here; the filesystem phase is
modelled separately below.  The helper definitions correspond to the
intermediate values of the Python function. -/

/-- The dict `similarity_groups` after pattern groups are merged in (lines 317-352). -/
def sims2Of (file_names : List String) (min_pattern_length : ℕ) (threshold : ℚ)
    (max_groups min_files_per_group : ℕ) : List (String × List String) :=
  let sims := find_similar_files file_names threshold
  let processed := (sims.map Prod.snd).flatten
  let remaining := file_names.filter (fun f => !processed.contains f)
  if remaining.isEmpty then sims
  else
    let pats := extract_common_patterns remaining min_pattern_length
    let pg := ((pats.take max_groups).foldl (fun acc pr =>
      remaining.foldl (fun acc f =>
        if f ∈ acc.2 then acc
        else if strContains (String.mk (lowerL f.data)) pr.1 then
          let sp := sanitize_folder_name pr.1
          if sp = "" then acc
          else (alistAppend acc.1 sp f, acc.2 ++ [f])
        else acc) acc)
      (([] : List (String × List String)), ([] : List String))).1
    let pg2 := pg.filter (fun e => decide (min_files_per_group ≤ e.2.length))
    pg2.foldl (fun sg e => if e.2.isEmpty then sg else alistInsert sg e.1 e.2) sims

/-- The dict `final_groups` before the Miscellaneous assignment (lines 355-366): every
surviving group is renamed — similarity groups through
`create_group_name_from_files`, pattern groups through their own key — and
stored by dictionary assignment. -/
def finalgOf (file_names : List String) (min_pattern_length : ℕ) (threshold : ℚ)
    (max_groups min_files_per_group : ℕ) : List (String × List String) :=
  (sims2Of file_names min_pattern_length threshold max_groups min_files_per_group).foldl
    (fun fg e =>
      if min_files_per_group ≤ e.2.length then
        let name := if e.1 ∈ file_names then
            sanitize_folder_name (create_group_name_from_files e.2)
          else sanitize_folder_name e.1
        alistInsert fg name e.2
      else fg) []

/-- The list `misc_files` (lines 369-373): input files appearing in no group value. -/
def miscOf (file_names : List String) (min_pattern_length : ℕ) (threshold : ℚ)
    (max_groups min_files_per_group : ℕ) : List String :=
  let grouped := ((finalgOf file_names min_pattern_length threshold max_groups
    min_files_per_group).map Prod.snd).flatten
  file_names.filter (fun f => !grouped.contains f)

/-- The dict `final_groups` after the Miscellaneous assignment of lines 374-375. -/
def finalg2Of (file_names : List String) (min_pattern_length : ℕ) (threshold : ℚ)
    (max_groups min_files_per_group : ℕ) : List (String × List String) :=
  let fg := finalgOf file_names min_pattern_length threshold max_groups
    min_files_per_group
  let misc := miscOf file_names min_pattern_length threshold max_groups
    min_files_per_group
  if misc.isEmpty then fg else alistInsert fg "Miscellaneous" misc

/-- The iteration order of lines 382-392: `sorted(items, key=len(files),
reverse=True)`, i.e. stable descending by file-list length. -/
def sortByLenDesc (l : List (String × List String)) : List (String × List String) :=
  sortByDesc (fun x y => decide (x.2.length < y.2.length)) l

/-- One step of the deduplication pass of lines 385-392: bump the counter of
the base name and insert the (possibly suffixed) entry. -/
def uStep (acc : List (String × ℕ) × List (String × List String))
    (e : String × List String) : List (String × ℕ) × List (String × List String) :=
  let counters := alistBump acc.1 e.1
  let cnt := (alistLookup counters e.1).getD 0
  let name := if 1 < cnt then e.1 ++ " " ++ toString cnt else e.1
  (counters, alistInsert acc.2 name e.2)

/-- The deduplication pass of lines 377-392: walk the groups, counting each
base name; a repeated name receives the suffix of its occurrence number. -/
def uniquify (l : List (String × List String)) : List (String × List String) :=
  (l.foldl uStep (([] : List (String × ℕ)),
    ([] : List (String × List String)))).2

/-- The final group mapping (`unique_groups`) the pipeline computes before
any filesystem action, as a function of the directory listing and the four
tuning parameters. -/
def groupPlan (file_names : List String) (min_pattern_length : ℕ) (threshold : ℚ)
    (max_groups min_files_per_group : ℕ) : List (String × List String) :=
  uniquify (sortByLenDesc (finalg2Of file_names min_pattern_length threshold
    max_groups min_files_per_group))

/-! ### The filesystem phase (lines 175-229 and 399-437) -/

/-- A filesystem mutation the orchestrator can perform. -/
inductive FsOp : Type
  | mkdir (path : String)
  | move (src dst : String)
deriving DecidableEq, Repr

/-- The function `os.path.join` for the paths the pipeline builds. -/
def pathJoin (a b : String) : String :=
  a ++ "/" ++ b

/-- Embeds `get_unique_filename` (lines 175-197): append ` (n)` before the
extension for the first free `n`. The unbounded `while` loop is bounded by
`|fs| + 1` candidates, among which one is always free because they are
pairwise distinct; the fallback branch is unreachable. -/
def getUniqueFilename (fs : List String) (destination_path : String) : String :=
  if !fs.contains destination_path then destination_path
  else
    let base := splitextBase destination_path
    let ext := String.mk (destination_path.data.drop (splitextBase destination_path).data.length)
    let cands := (List.range (fs.length + 1)).map
      (fun n => base ++ " (" ++ toString (n + 1) ++ ")" ++ ext)
    match cands.find? (fun c => !fs.contains c) with
    | some c => c
    | none => destination_path

/-- Embeds `process_file` (lines 200-229) acting on a filesystem modelled as
the list of existing paths: compute the destination (resolving collisions),
and when not in dry-run and the file actually moves, emit the mkdir and move
operations and update the filesystem. -/
def processFile (folder_path : String) (dry_run : Bool) (fs : List String)
    (file_name group_folder_name : String) : List FsOp × List String :=
  let source_path := pathJoin folder_path file_name
  let group := if group_folder_name = "" then "Miscellaneous" else group_folder_name
  let group_folder := pathJoin folder_path group
  let dest0 := pathJoin group_folder file_name
  let dest_path := if fs.contains dest0 && source_path ≠ dest0 then
    getUniqueFilename fs dest0 else dest0
  if !dry_run && source_path ≠ dest_path then
    ([FsOp.mkdir group_folder, FsOp.move source_path dest_path],
      (fs.filter (fun p => p ≠ source_path)) ++ [dest_path])
  else ([], fs)

/-- Embeds the filesystem phase of `group_files_by_similarity`
(lines 399-437): when not in dry-run, create every group directory, then
process each (file, group) pair in plan order. Returns the computed group
mapping together with every mutation performed. -/
def runPipeline (file_names : List String) (min_pattern_length : ℕ) (threshold : ℚ)
    (max_groups min_files_per_group : ℕ) (folder_path : String) (fs0 : List String)
    (dry_run : Bool) : List (String × List String) × List FsOp :=
  let unique_groups := groupPlan file_names min_pattern_length threshold max_groups
    min_files_per_group
  let mkdirOps := if dry_run then []
    else unique_groups.map (fun e => FsOp.mkdir (pathJoin folder_path e.1))
  let file_infos := (unique_groups.map (fun e => e.2.map (fun f => (f, e.1)))).flatten
  let moveOps := (file_infos.foldl (fun acc fi =>
    let r := processFile folder_path dry_run acc.2 fi.1 fi.2
    (acc.1 ++ r.1, r.2)) (([] : List FsOp), fs0)).1
  (unique_groups, mkdirOps ++ moveOps)

/-! ### The claim-side description of the fuzzy pass -/

/-- Modelled from the spec's description of the fuzzy pass (section 4.3 and
claim C5): a later not-yet-consumed file B joins A's cluster exactly when the
length prefilter does not exclude it and its similarity score against A's key
is greater than or equal to the threshold (a score strictly below the
threshold excludes B). -/
def joinFilter (threshold : ℚ) (base1 : String) (consumed : List String)
    (f2 : String) : Bool :=
  let base2 := get_file_base_name f2
  !consumed.contains f2 &&
  !(min base1.length base2.length <
    max base1.length base2.length - min base1.length base2.length) &&
  decide (threshold ≤ similarityScore base1 base2)

/-- Modelled from the spec's description of the fuzzy pass (section 4.3 and
claim C5): the same greedy left-to-right scan as `fuzzyGo`, but with the
files joining A's cluster given by the single static filter `joinFilter`
over the later files; the cluster is emitted exactly when it has at least two
members, and otherwise A stays unconsumed. -/
def fuzzyPassSpec (threshold : ℚ) :
    List String → List String → List (String × List String) →
    List (String × List String) × List String
  | [], consumed, groups => (groups, consumed)
  | file1 :: rest, consumed, groups =>
    if file1 ∈ consumed then fuzzyPassSpec threshold rest consumed groups
    else
      let joins := rest.filter (joinFilter threshold (get_file_base_name file1) consumed)
      if 2 ≤ (file1 :: joins).length then
        fuzzyPassSpec threshold rest (consumed ++ joins ++ [file1])
          (alistInsert groups (minString (file1 :: joins)) (file1 :: joins))
      else fuzzyPassSpec threshold rest consumed groups

/-! ### Lemmas about association lists -/

theorem alistKeys_def {β : Type} (d : List (String × β)) :
    alistKeys d = d.map Prod.fst := rfl

theorem alistKeys_alistInsert {β : Type} (d : List (String × β)) (k : String) (v : β) :
    alistKeys (alistInsert d k v) =
      if k ∈ alistKeys d then alistKeys d else alistKeys d ++ [k] := by
  simp only [alistKeys_def]
  induction d with
  | nil => simp [alistInsert]
  | cons p d ih =>
    by_cases h : p.1 = k
    · subst h
      simp [alistInsert]
    · simp only [alistInsert, if_neg h, List.map_cons, List.mem_cons]
      rw [ih]
      have hkp : ¬ k = p.1 := fun hc => h hc.symm
      by_cases hk : k ∈ List.map Prod.fst d
      · simp [hk]
      · simp [hk, hkp]

theorem mem_alistKeys_alistInsert {β : Type} (d : List (String × β)) (k : String) (v : β)
    (x : String) : x ∈ alistKeys (alistInsert d k v) ↔ x ∈ alistKeys d ∨ x = k := by
  rw [alistKeys_alistInsert]
  by_cases h : k ∈ alistKeys d
  · rw [if_pos h]
    constructor
    · exact Or.inl
    · rintro (hx | hx)
      · exact hx
      · exact hx ▸ h
  · rw [if_neg h]
    simp

theorem alistKeys_alistInsert_nodup {β : Type} (d : List (String × β)) (k : String) (v : β)
    (h : (alistKeys d).Nodup) : (alistKeys (alistInsert d k v)).Nodup := by
  rw [alistKeys_alistInsert]
  by_cases hk : k ∈ alistKeys d
  · rwa [if_pos hk]
  · rw [if_neg hk]
    simpa [List.nodup_append] using ⟨h, hk⟩

theorem mem_alistInsert {β : Type} (d : List (String × β)) (k : String) (v : β)
    (p : String × β) (h : p ∈ alistInsert d k v) : p = (k, v) ∨ p ∈ d := by
  induction d with
  | nil => simpa [alistInsert] using h
  | cons q d ih =>
    by_cases hq : q.1 = k
    · simp only [alistInsert, if_pos hq] at h
      rcases List.mem_cons.mp h with h1 | h1
      · exact Or.inl h1
      · exact Or.inr (List.mem_cons_of_mem _ h1)
    · simp only [alistInsert, if_neg hq] at h
      rcases List.mem_cons.mp h with h1 | h1
      · exact Or.inr (h1 ▸ List.mem_cons_self _ _)
      · rcases ih h1 with h2 | h2
        · exact Or.inl h2
        · exact Or.inr (List.mem_cons_of_mem _ h2)

theorem self_mem_alistInsert {β : Type} (d : List (String × β)) (k : String) (v : β) :
    (k, v) ∈ alistInsert d k v := by
  induction d with
  | nil => simp [alistInsert]
  | cons q d ih =>
    by_cases hq : q.1 = k
    · simp [alistInsert, hq]
    · simp only [alistInsert, if_neg hq]
      exact List.mem_cons_of_mem _ ih

theorem mem_alistInsert_of_mem {β : Type} (d : List (String × β)) (k : String) (v : β)
    (p : String × β) (hp : p ∈ d) (hne : p.1 ≠ k) : p ∈ alistInsert d k v := by
  induction d with
  | nil => simp at hp
  | cons q d ih =>
    by_cases hq : q.1 = k
    · simp only [alistInsert, if_pos hq]
      rcases List.mem_cons.mp hp with h1 | h1
      · exact absurd (h1 ▸ hq) hne
      · exact List.mem_cons_of_mem _ h1
    · simp only [alistInsert, if_neg hq]
      rcases List.mem_cons.mp hp with h1 | h1
      · exact h1 ▸ List.mem_cons_self _ _
      · exact List.mem_cons_of_mem _ (ih h1)

theorem alistLookup_eq_some_iff_mem {β : Type} (d : List (String × β))
    (hd : (alistKeys d).Nodup) (k : String) (v : β) :
    alistLookup d k = some v ↔ (k, v) ∈ d := by
  induction d with
  | nil => simp [alistLookup]
  | cons q d ih =>
    simp only [alistKeys_def, List.map_cons, List.nodup_cons] at hd
    obtain ⟨q1, q2⟩ := q
    have hd2 : (alistKeys d).Nodup := hd.2
    have hq1 : q1 ∉ List.map Prod.fst d := hd.1
    by_cases hq : q1 = k
    · subst hq
      show (if q1 = q1 then some q2 else alistLookup d q1) = some v ↔ _
      rw [if_pos rfl]
      simp only [Option.some.injEq, List.mem_cons, Prod.mk.injEq, true_and]
      constructor
      · intro h; exact Or.inl h.symm
      · rintro (h | h)
        · exact h.symm
        · exact absurd (List.mem_map_of_mem Prod.fst h) hq1
    · simp only [alistLookup, if_neg hq, List.mem_cons, Prod.mk.injEq]
      rw [ih hd2]
      constructor
      · exact Or.inr
      · rintro (⟨h, _⟩ | h)
        · exact absurd h.symm hq
        · exact h

theorem alistLookup_isSome_iff_mem_keys {β : Type} (d : List (String × β)) (k : String) :
    (alistLookup d k).isSome ↔ k ∈ alistKeys d := by
  simp only [alistKeys_def]
  induction d with
  | nil => simp [alistLookup]
  | cons q d ih =>
    by_cases hq : q.1 = k
    · simp [alistLookup, hq]
    · simp only [alistLookup, if_neg hq, List.map_cons, List.mem_cons]
      rw [ih]
      constructor
      · intro h; exact Or.inr h
      · rintro (h | h)
        · exact absurd h.symm hq
        · exact h

theorem alistLookup_alistAppend {β : Type} (d : List (String × List β)) (k : String)
    (x : β) (q : String) :
    alistLookup (alistAppend d k x) q =
      if q = k then some ((alistLookup d k).getD [] ++ [x]) else alistLookup d q := by
  induction d with
  | nil =>
    by_cases h : q = k
    · simp [alistAppend, alistLookup, h]
    · have h2 : ¬ k = q := fun hc => h hc.symm
      simp [alistAppend, alistLookup, h, h2]
  | cons p d ih =>
    by_cases hp : p.1 = k
    · subst hp
      by_cases hq : q = p.1
      · simp [alistAppend, alistLookup, hq]
      · have h2 : ¬ p.1 = q := fun hc => hq hc.symm
        simp [alistAppend, alistLookup, hq, h2]
    · by_cases hq : p.1 = q
      · subst hq
        simp [alistAppend, alistLookup, hp]
      · simp [alistAppend, alistLookup, hp, hq, ih]

theorem mem_alistKeys_alistAppend {β : Type} (d : List (String × List β)) (k : String)
    (x : β) (q : String) :
    q ∈ alistKeys (alistAppend d k x) ↔ q ∈ alistKeys d ∨ q = k := by
  simp only [alistKeys_def]
  induction d with
  | nil => simp [alistAppend]
  | cons p d ih =>
    simp only [alistAppend]
    by_cases hp : p.1 = k
    · rw [if_pos hp]
      simp only [List.map_cons, List.mem_cons]
      rw [hp]
      tauto
    · rw [if_neg hp]
      simp only [List.map_cons, List.mem_cons]
      rw [ih]
      tauto

theorem alistKeys_alistAppend_nodup {β : Type} (d : List (String × List β)) (k : String)
    (x : β) (h : (alistKeys d).Nodup) : (alistKeys (alistAppend d k x)).Nodup := by
  induction d with
  | nil => simp [alistAppend, alistKeys_def]
  | cons p d ih =>
    simp only [alistKeys_def, List.map_cons, List.nodup_cons] at h
    have h1 : p.1 ∉ List.map Prod.fst d := h.1
    have h2 : (alistKeys d).Nodup := h.2
    simp only [alistAppend]
    by_cases hp : p.1 = k
    · rw [if_pos hp]
      simp only [alistKeys_def, List.map_cons, List.nodup_cons]
      exact ⟨h1, h2⟩
    · rw [if_neg hp]
      simp only [alistKeys_def, List.map_cons, List.nodup_cons]
      refine ⟨fun hc => ?_, ih h2⟩
      rcases (mem_alistKeys_alistAppend d k x p.1).mp hc with hc2 | hc2
      · exact h1 hc2
      · exact hp hc2

theorem alistLookup_alistBump (d : List (String × ℕ)) (k q : String) :
    alistLookup (alistBump d k) q =
      if q = k then some ((alistLookup d k).getD 0 + 1) else alistLookup d q := by
  induction d with
  | nil =>
    by_cases h : q = k
    · simp [alistBump, alistLookup, h]
    · have h2 : ¬ k = q := fun hc => h hc.symm
      simp [alistBump, alistLookup, h, h2]
  | cons p d ih =>
    by_cases hp : p.1 = k
    · subst hp
      by_cases hq : q = p.1
      · simp [alistBump, alistLookup, hq]
      · have h2 : ¬ p.1 = q := fun hc => hq hc.symm
        simp [alistBump, alistLookup, hq, h2]
    · by_cases hq : p.1 = q
      · subst hq
        simp [alistBump, alistLookup, hp]
      · simp [alistBump, alistLookup, hp, hq, ih]

/-- Generic membership extraction for folds whose step either keeps the
accumulator entries or inserts one described entry. -/
theorem mem_foldl_of_step {α β : Type} (step : List (String × β) → α → List (String × β))
    (Q : α → (String × β) → Prop)
    (hstep : ∀ sg e p, p ∈ step sg e → p ∈ sg ∨ Q e p) :
    ∀ (l : List α) (init : List (String × β)) (p : String × β),
      p ∈ l.foldl step init → p ∈ init ∨ ∃ e ∈ l, Q e p := by
  intro l
  induction l with
  | nil => intro init p h; exact Or.inl h
  | cons e l ih =>
    intro init p h
    rcases ih (step init e) p h with h1 | h1
    · rcases hstep init e p h1 with h2 | h2
      · exact Or.inl h2
      · exact Or.inr ⟨e, List.mem_cons_self _ _, h2⟩
    · rcases h1 with ⟨e2, he2, hq⟩
      exact Or.inr ⟨e2, List.mem_cons_of_mem _ he2, hq⟩

/-- Generic fold-invariant lemma. -/
theorem foldl_preserve {α β : Type} (step : β → α → β) (Inv : β → Prop)
    (hstep : ∀ sg e, Inv sg → Inv (step sg e)) :
    ∀ (l : List α) (init : β), Inv init → Inv (l.foldl step init) := by
  intro l
  induction l with
  | nil => intro init h; exact h
  | cons e l ih => intro init h; exact ih (step init e) (hstep init e h)

theorem alistInsert_of_not_mem_keys {β : Type} (d : List (String × β)) (k : String)
    (v : β) (h : k ∉ alistKeys d) : alistInsert d k v = d ++ [(k, v)] := by
  induction d with
  | nil => simp [alistInsert]
  | cons p d ih =>
    simp only [alistKeys_def, List.map_cons, List.mem_cons] at h
    push_neg at h
    simp only [alistInsert, if_neg (fun hc : p.1 = k => h.1 hc.symm), List.cons_append,
      List.cons.injEq, true_and]
    exact ih (by simpa [alistKeys_def] using h.2)

/-! ### The exact pass: characterization lemmas -/

/-- The step function of `name_groups`. -/
def ngStep (d : List (String × List String)) (f : String) : List (String × List String) :=
  if get_file_base_name f = "" then d
  else alistAppend d (get_file_base_name f) f

theorem name_groups_eq_foldl (file_names : List String) :
    name_groups file_names = file_names.foldl ngStep [] := rfl

theorem ng_lookup_aux (k : String) (hk : k ≠ "") :
    ∀ (fns : List String) (d : List (String × List String)),
      (alistLookup (fns.foldl ngStep d) k).getD [] =
        (alistLookup d k).getD [] ++ fns.filter (fun f => get_file_base_name f == k) := by
  intro fns
  induction fns with
  | nil => intro d; simp
  | cons f fns ih =>
    intro d
    simp only [List.foldl_cons, List.filter_cons]
    by_cases hgf : get_file_base_name f = ""
    · have : (get_file_base_name f == k) = false := by
        simp only [beq_eq_false_iff_ne, ne_eq]
        exact fun hc => hk (hc ▸ hgf)
      rw [this]
      simp only [Bool.false_eq_true, if_false, ngStep, if_pos hgf]
      exact ih d
    · simp only [ngStep, if_neg hgf]
      rw [ih (alistAppend d (get_file_base_name f) f), alistLookup_alistAppend]
      by_cases hfk : get_file_base_name f = k
      · have hbeq : (get_file_base_name f == k) = true := by simpa using hfk
        rw [hbeq, if_pos hfk.symm]
        subst hfk
        simp [List.append_assoc]
      · have hbeq : (get_file_base_name f == k) = false := by simpa using hfk
        rw [hbeq, if_neg (fun hc : k = get_file_base_name f => hfk hc.symm)]
        simp

/-- The value stored for a non-empty key is exactly the files with that key. -/
theorem name_groups_value (file_names : List String) (k : String) (hk : k ≠ "") :
    (alistLookup (name_groups file_names) k).getD [] =
      file_names.filter (fun f => get_file_base_name f == k) := by
  rw [name_groups_eq_foldl, ng_lookup_aux k hk]
  simp [alistLookup]

theorem ng_keys_aux (q : String) :
    ∀ (fns : List String) (d : List (String × List String)),
      q ∈ alistKeys (fns.foldl ngStep d) ↔
        q ∈ alistKeys d ∨ (q ≠ "" ∧ ∃ f ∈ fns, get_file_base_name f = q) := by
  intro fns
  induction fns with
  | nil => intro d; simp
  | cons f fns ih =>
    intro d
    simp only [List.foldl_cons]
    rw [ih]
    by_cases hgf : get_file_base_name f = ""
    · simp only [ngStep, if_pos hgf, List.mem_cons]
      constructor
      · rintro (h | h)
        · exact Or.inl h
        · exact Or.inr ⟨h.1, h.2.imp (fun x hx => ⟨Or.inr hx.1, hx.2⟩)⟩
      · rintro (h | ⟨hq, x, hx, hgx⟩)
        · exact Or.inl h
        · rcases hx with h1 | h1
          · subst h1
            exact absurd hgx (fun hc => hq (hc ▸ hgf))
          · exact Or.inr ⟨hq, x, h1, hgx⟩
    · simp only [ngStep, if_neg hgf, mem_alistKeys_alistAppend, List.mem_cons]
      constructor
      · rintro ((h | h) | h)
        · exact Or.inl h
        · exact Or.inr ⟨fun hc => hgf (h ▸ hc), f, Or.inl rfl, h.symm⟩
        · exact Or.inr ⟨h.1, h.2.imp (fun x hx => ⟨Or.inr hx.1, hx.2⟩)⟩
      · rintro (h | ⟨hq, x, hx, hgx⟩)
        · exact Or.inl (Or.inl h)
        · rcases hx with h1 | h1
          · subst h1
            exact Or.inl (Or.inr hgx.symm)
          · exact Or.inr ⟨hq, x, h1, hgx⟩

theorem name_groups_mem_keys (file_names : List String) (q : String) :
    q ∈ alistKeys (name_groups file_names) ↔
      q ≠ "" ∧ ∃ f ∈ file_names, get_file_base_name f = q := by
  rw [name_groups_eq_foldl, ng_keys_aux]
  simp [alistKeys_def]

theorem name_groups_keys_nodup (file_names : List String) :
    (alistKeys (name_groups file_names)).Nodup := by
  rw [name_groups_eq_foldl]
  refine foldl_preserve ngStep (fun d => (alistKeys d).Nodup) ?_ file_names []
    (by simp [alistKeys_def])
  intro d f hd
  unfold ngStep
  split
  · exact hd
  · exact alistKeys_alistAppend_nodup d _ f hd

/-- Every entry of `name_groups` has a non-empty key and holds exactly the
files with that key. -/
theorem name_groups_entry (file_names : List String) (k : String) (v : List String)
    (h : (k, v) ∈ name_groups file_names) :
    k ≠ "" ∧ v = file_names.filter (fun f => get_file_base_name f == k) := by
  have hk : k ∈ alistKeys (name_groups file_names) :=
    List.mem_map_of_mem Prod.fst h
  have hkne : k ≠ "" := ((name_groups_mem_keys file_names k).mp hk).1
  have hlv : alistLookup (name_groups file_names) k = some v :=
    (alistLookup_eq_some_iff_mem _ (name_groups_keys_nodup file_names) k v).mpr h
  refine ⟨hkne, ?_⟩
  have := name_groups_value file_names k hkne
  rw [hlv] at this
  simpa using this

/-- Conversely, every non-empty key borne by some file is an entry. -/
theorem name_groups_mem (file_names : List String) (k : String) (hk : k ≠ "")
    (f0 : String) (hf0 : f0 ∈ file_names) (hgf0 : get_file_base_name f0 = k) :
    (k, file_names.filter (fun f => get_file_base_name f == k)) ∈ name_groups file_names := by
  have hkk : k ∈ alistKeys (name_groups file_names) :=
    (name_groups_mem_keys file_names k).mpr ⟨hk, f0, hf0, hgf0⟩
  have hs : (alistLookup (name_groups file_names) k).isSome :=
    (alistLookup_isSome_iff_mem_keys _ k).mpr hkk
  obtain ⟨v, hv⟩ := Option.isSome_iff_exists.mp hs
  have hval := name_groups_value file_names k hk
  rw [hv] at hval
  simp only [Option.getD_some] at hval
  rw [← hval]
  exact (alistLookup_eq_some_iff_mem _ (name_groups_keys_nodup file_names) k v).mp hv

theorem minString_mem : ∀ (l : List String), l ≠ [] → minString l ∈ l := by
  have aux : ∀ (fs : List String) (m : String),
      fs.foldl (fun m x => if x.data < m.data then x else m) m ∈ m :: fs := by
    intro fs
    induction fs with
    | nil => intro m; simp
    | cons x fs ih =>
      intro m
      simp only [List.foldl_cons]
      by_cases hx : x.data < m.data
      · rw [if_pos hx]
        rcases List.mem_cons.mp (ih x) with h | h
        · rw [h]; exact List.mem_cons_of_mem _ (List.mem_cons_self _ _)
        · exact List.mem_cons_of_mem _ (List.mem_cons_of_mem _ h)
      · rw [if_neg hx]
        rcases List.mem_cons.mp (ih m) with h | h
        · rw [h]; exact List.mem_cons_self _ _
        · exact List.mem_cons_of_mem _ (List.mem_cons_of_mem _ h)
  intro l hl
  cases l with
  | nil => exact absurd rfl hl
  | cons f fs => exact aux fs f

/-- The step function of `exactGroupsOf`. -/
def exStep (sg : List (String × List String)) (e : String × List String) :
    List (String × List String) :=
  if 2 ≤ e.2.length then alistInsert sg (minString e.2) e.2 else sg

theorem exactGroupsOf_eq_foldl (file_names : List String) :
    exactGroupsOf file_names = (name_groups file_names).foldl exStep [] := rfl

/-- Insertions whose key always determines the value survive the fold. -/
theorem foldl_exStep_mem (k0 : String) (v0 : List String) :
    ∀ (l : List (String × List String)) (init : List (String × List String)),
      ((k0, v0) ∈ init ∨ ∃ e ∈ l, 2 ≤ e.2.length ∧ minString e.2 = k0 ∧ e.2 = v0) →
      (∀ e ∈ l, 2 ≤ e.2.length → minString e.2 = k0 → e.2 = v0) →
      (k0, v0) ∈ l.foldl exStep init := by
  intro l
  induction l with
  | nil =>
    intro init h _
    rcases h with h | ⟨e, he, _⟩
    · exact h
    · simp at he
  | cons e l ih =>
    intro init h hdet
    simp only [List.foldl_cons]
    have hdet2 : ∀ e2 ∈ l, 2 ≤ e2.2.length → minString e2.2 = k0 → e2.2 = v0 :=
      fun e2 he2 => hdet e2 (List.mem_cons_of_mem _ he2)
    rcases h with h | ⟨e2, he2, hb⟩
    · refine ih (exStep init e) (Or.inl ?_) hdet2
      unfold exStep
      split
      · rename_i hlen
        by_cases hkey : minString e.2 = k0
        · have : e.2 = v0 := hdet e (List.mem_cons_self _ _) hlen hkey
          rw [hkey, this] at *
          exact self_mem_alistInsert _ _ _
        · exact mem_alistInsert_of_mem _ _ _ _ h (by simpa using fun hc => hkey hc.symm)
      · exact h
    · rcases List.mem_cons.mp he2 with he3 | he3
      · subst he3
        refine ih (exStep init e2) (Or.inl ?_) hdet2
        unfold exStep
        rw [if_pos hb.1, hb.2.1, hb.2.2]
        exact self_mem_alistInsert _ _ _
      · exact ih (exStep init e) (Or.inr ⟨e2, he3, hb⟩) hdet2

/-- Backward direction: every entry of the exact-group fold was inserted. -/
theorem foldl_exStep_mem_rev (l : List (String × List String))
    (init : List (String × List String)) (p : String × List String)
    (h : p ∈ l.foldl exStep init) :
    p ∈ init ∨ ∃ e ∈ l, 2 ≤ e.2.length ∧ p = (minString e.2, e.2) := by
  refine mem_foldl_of_step exStep
    (fun e p => 2 ≤ e.2.length ∧ p = (minString e.2, e.2)) ?_ l init p h
  intro sg e q hq
  unfold exStep at hq
  split at hq
  · rename_i hlen
    rcases mem_alistInsert _ _ _ _ hq with h1 | h1
    · exact Or.inr ⟨hlen, h1⟩
    · exact Or.inl h1
  · exact Or.inl hq

/-- Characterization of the files consumed by the exact pass. -/
theorem mem_exactProcessed (file_names : List String) (f : String) :
    f ∈ exactProcessed file_names ↔
      f ∈ file_names ∧ get_file_base_name f ≠ "" ∧
        2 ≤ (file_names.filter
          (fun f2 => get_file_base_name f2 == get_file_base_name f)).length := by
  unfold exactProcessed
  simp only [List.mem_flatten, List.mem_map]
  constructor
  · rintro ⟨v, ⟨⟨g, v2⟩, hgv, hv2⟩, hf⟩
    subst hv2
    rcases foldl_exStep_mem_rev _ [] _ hgv with h | ⟨e, he, hlen, hp⟩
    · simp at h
    · have hent := name_groups_entry file_names e.1 e.2 he
      have hv2e : v2 = e.2 := congrArg Prod.snd hp
      subst hv2e
      rw [hent.2] at hf
      have hf2 := List.mem_filter.mp hf
      have hkey : get_file_base_name f = e.1 := by simpa using hf2.2
      refine ⟨hf2.1, fun hc => hent.1 (hkey ▸ hc), ?_⟩
      rw [hkey, ← hent.2]
      exact hlen
  · rintro ⟨hf, hne, hlen⟩
    set k := get_file_base_name f with hk
    set grp := file_names.filter (fun f2 => get_file_base_name f2 == k) with hgrp
    have hfg : f ∈ grp := List.mem_filter.mpr ⟨hf, by simp [hk]⟩
    have hgne : grp ≠ [] := fun hc => by simp [hc] at hfg
    have hmem : (k, grp) ∈ name_groups file_names :=
      name_groups_mem file_names k hne f hf rfl
    have hins : (minString grp, grp) ∈ exactGroupsOf file_names := by
      rw [exactGroupsOf_eq_foldl]
      refine foldl_exStep_mem (minString grp) grp _ []
        (Or.inr ⟨(k, grp), hmem, hlen, rfl, rfl⟩) ?_
      intro e he hle hmin
      have hent := name_groups_entry file_names e.1 e.2 he
      have hne2 : e.2 ≠ [] := by
        intro hc
        rw [hc] at hle
        simp at hle
      have hmm : minString e.2 ∈ e.2 := minString_mem _ hne2
      have hkeyOf : ∀ x ∈ e.2, get_file_base_name x = e.1 := by
        intro x hx
        rw [hent.2] at hx
        simpa using (List.mem_filter.mp hx).2
      have hkey : get_file_base_name (minString e.2) = e.1 := hkeyOf _ hmm
      have hkg : get_file_base_name (minString grp) = k := by
        simpa using (List.mem_filter.mp (minString_mem grp hgne)).2
      have : e.1 = k := by rw [← hkey, hmin, hkg]
      rw [hent.2, this, hgrp]
    exact ⟨grp, ⟨(minString grp, grp), hins, rfl⟩, hfg⟩

/-- C4: in the exact-match pass, every non-empty normalized key shared by at
least two filenames yields a cluster holding exactly those filenames, keyed
by the lexicographically smallest of them; every emitted cluster arises this
way; and the files with a unique or empty key are exactly the ones passed on
to the fuzzy pass. -/
theorem C4_exact_match_pass (file_names : List String) :
    (∀ k : String, k ≠ "" →
      2 ≤ (file_names.filter (fun f => get_file_base_name f == k)).length →
      (minString (file_names.filter (fun f => get_file_base_name f == k)),
        file_names.filter (fun f => get_file_base_name f == k)) ∈
          exactGroupsOf file_names) ∧
    (∀ g v, (g, v) ∈ exactGroupsOf file_names → ∃ k, k ≠ "" ∧
      v = file_names.filter (fun f => get_file_base_name f == k) ∧
      2 ≤ v.length ∧ g = minString v) ∧
    exactRemaining file_names = file_names.filter (fun f =>
      get_file_base_name f == "" ||
      decide ((file_names.filter
        (fun f2 => get_file_base_name f2 == get_file_base_name f)).length < 2)) := by
  refine ⟨?_, ?_, ?_⟩
  · intro k hk hlen
    set grp := file_names.filter (fun f => get_file_base_name f == k) with hgrp
    have hgne : grp ≠ [] := by
      intro hc
      rw [hc] at hlen
      simp at hlen
    obtain ⟨f0, hf0⟩ := List.exists_mem_of_ne_nil grp hgne
    have hf0f := List.mem_filter.mp hf0
    have hg0 : get_file_base_name f0 = k := by simpa using hf0f.2
    have hg0ne : get_file_base_name f0 ≠ "" := by rw [hg0]; exact hk
    have := (mem_exactProcessed file_names f0).mpr
      ⟨hf0f.1, hg0ne, by rw [hg0]; exact hlen⟩
    unfold exactProcessed at this
    simp only [List.mem_flatten, List.mem_map] at this
    obtain ⟨v, ⟨⟨g, v2⟩, hgv, hv2⟩, hfv⟩ := this
    subst hv2
    rcases foldl_exStep_mem_rev _ [] _ hgv with h | ⟨e, he, hlen2, hp⟩
    · simp at h
    · have hent := name_groups_entry file_names e.1 e.2 he
      have hv2e : v2 = e.2 := congrArg Prod.snd hp
      have hg2 : g = minString e.2 := by
        have := congrArg Prod.fst hp
        simpa using this
      have hkf : get_file_base_name f0 = e.1 := by
        have hfv2 : f0 ∈ e.2 := hv2e ▸ hfv
        rw [hent.2] at hfv2
        simpa using (List.mem_filter.mp hfv2).2
      have hek : e.1 = k := by rw [← hkf, hg0]
      have he2grp : e.2 = grp := by
        rw [hent.2, hek]
      rw [hg2, hv2e, he2grp] at hgv
      exact hgv
  · intro g v hgv
    rcases foldl_exStep_mem_rev _ [] _ hgv with h | ⟨e, he, hlen, hp⟩
    · simp at h
    · have hent := name_groups_entry file_names e.1 e.2 he
      have hv2 : v = e.2 := by
        have := congrArg Prod.snd hp
        simpa using this
      have hg2 : g = minString e.2 := by
        have := congrArg Prod.fst hp
        simpa using this
      refine ⟨e.1, hent.1, ?_, ?_, ?_⟩
      · rw [hv2]
        exact hent.2
      · rw [hv2]
        exact hlen
      · rw [hg2, hv2]
  · unfold exactRemaining
    refine List.filter_congr ?_
    intro f hf
    have hmem := mem_exactProcessed file_names f
    by_cases hp : f ∈ exactProcessed file_names
    · have h2 := hmem.mp hp
      have hcont : (exactProcessed file_names).contains f = true := List.elem_iff.mpr hp
      have hb1 : (get_file_base_name f == "") = false := by simpa using h2.2.1
      have hb2 : decide ((file_names.filter
          (fun f2 => get_file_base_name f2 == get_file_base_name f)).length < 2) = false := by
        simpa using Nat.not_lt.mpr h2.2.2
      rw [hcont, hb1, hb2]
      rfl
    · have hcont : (exactProcessed file_names).contains f = false := by
        cases hcc : (exactProcessed file_names).contains f
        · rfl
        · exact absurd (List.elem_iff.mp hcc) hp
      have hdis : get_file_base_name f = "" ∨ (file_names.filter
          (fun f2 => get_file_base_name f2 == get_file_base_name f)).length < 2 := by
        by_contra hcon
        push_neg at hcon
        exact hp (hmem.mpr ⟨hf, hcon.1, hcon.2⟩)
      rw [hcont]
      rcases hdis with hd | hd
      · have hb : (get_file_base_name f == "") = true := by simpa using hd
        rw [hb]
        rfl
      · have hb : decide ((file_names.filter
            (fun f2 => get_file_base_name f2 == get_file_base_name f)).length < 2) = true := by
          simpa using hd
        rw [hb]
        simp

/-- Concrete instance of the exact-pass theorem: the two `Report` files share
the key `"report"` and form a cluster keyed by the smaller filename. -/
theorem C4_exact_match_pass_witness :
    ((("report" : String) ≠ "" ∧
      2 ≤ ((["Report (1).pdf", "Report (2).pdf", "Notes.txt"] : List String).filter
        (fun f => get_file_base_name f == "report")).length)) ∧
    ("Report (1).pdf", ["Report (1).pdf", "Report (2).pdf"]) ∈
      exactGroupsOf ["Report (1).pdf", "Report (2).pdf", "Notes.txt"] :=
  ⟨⟨by decide, by decide⟩,
    (C4_exact_match_pass ["Report (1).pdf", "Report (2).pdf", "Notes.txt"]).1
      "report" (by decide) (by decide)⟩

/-! ### Claims C1, C3, C8 and C9 -/

/-- C1: the claim that the output mapping covers the input exactly fails on
the code. On the input below, the two `miscellaneous*.txt` files form a
similarity cluster whose generated folder name is exactly `"Miscellaneous"`;
the later catch-all assignment `final_groups["Miscellaneous"] = misc_files`
(script.py line 375) overwrites that cluster, so both files vanish from the
final mapping: the union of the value lists misses them. -/
theorem C1_coverage_violated_at_misc_name :
    groupPlan ["miscellaneous1.txt", "miscellaneous2.txt", "zzz.txt"] 3 (7/10) 50 2 =
      [("Miscellaneous", ["zzz.txt"])] ∧
    "miscellaneous1.txt" ∈
      (["miscellaneous1.txt", "miscellaneous2.txt", "zzz.txt"] : List String) ∧
    "miscellaneous1.txt" ∉
      ((groupPlan ["miscellaneous1.txt", "miscellaneous2.txt", "zzz.txt"]
        3 (7/10) 50 2).map Prod.snd).flatten :=
  ⟨by decide, by decide, by decide⟩

/-- C3: the claim that colliding sanitized names receive `" 2"`, `" 3"`, …
suffixes with every colliding group's file list preserved fails on the code.
The two exact-match clusters below both produce the sanitized name
`"Report"`; the dictionary assignment `final_groups[group_name] = files`
(script.py line 366) silently overwrites the first cluster, whose files drop
to `Miscellaneous`, and the suffixing loop of lines 385-392 never fires
because dictionary keys are already unique. -/
theorem C3_colliding_names_overwritten :
    groupPlan ["report a1.txt", "report a2.txt", "report b1.txt", "report b2.txt"]
        3 (7/10) 50 2 =
      [("Report", ["report b1.txt", "report b2.txt"]),
       ("Miscellaneous", ["report a1.txt", "report a2.txt"])] ∧
    "Report 2" ∉
      (groupPlan ["report a1.txt", "report a2.txt", "report b1.txt", "report b2.txt"]
        3 (7/10) 50 2).map Prod.fst :=
  ⟨by decide, by decide⟩

theorem processFile_dry (folder_path : String) (fs : List String)
    (file_name group_folder_name : String) :
    processFile folder_path true fs file_name group_folder_name = ([], fs) := by
  simp [processFile]

theorem foldl_keep_fst {γ δ ε : Type} :
    ∀ (l : List γ) (step : List δ × ε → γ → List δ × ε),
      (∀ acc fi, (step acc fi).1 = acc.1) →
      ∀ acc, (l.foldl step acc).1 = acc.1 := by
  intro l
  induction l with
  | nil => intro step hstep acc; rfl
  | cons fi l ih =>
    intro step hstep acc
    simp only [List.foldl_cons]
    rw [ih step hstep (step acc fi), hstep acc fi]

/-- C8: the group mapping computed in dry-run mode is identical to the one
computed in live mode on the same input, and the dry run performs no
filesystem operation at all (no mkdir, no move). -/
theorem C8_dry_run_purity (file_names : List String) (min_pattern_length : ℕ)
    (threshold : ℚ) (max_groups min_files_per_group : ℕ) (folder_path : String)
    (fs0 : List String) :
    (runPipeline file_names min_pattern_length threshold max_groups
        min_files_per_group folder_path fs0 true).1 =
      (runPipeline file_names min_pattern_length threshold max_groups
        min_files_per_group folder_path fs0 false).1 ∧
    (runPipeline file_names min_pattern_length threshold max_groups
        min_files_per_group folder_path fs0 true).2 = [] := by
  constructor
  · rfl
  · show ((if (true : Bool) then [] else _) ++ _ : List FsOp) = []
    rw [if_pos rfl, List.nil_append]
    refine foldl_keep_fst _ _ ?_ _
    intro acc fi
    simp [processFile_dry]

/-- C9: `sanitize_folder_name` is a total function: when the sanitized
candidate is empty or longer than 255 characters it returns the hash-derived
fallback name, otherwise the sanitized candidate; in both cases the result is
non-empty. -/
theorem C9_sanitize_total_with_fallback (folder_name : String) :
    sanitize_folder_name folder_name =
      (if sanitizedCore folder_name = "" ∨ 255 < (sanitizedCore folder_name).length then
        "Group_" ++ toString (pyHash folder_name % 10000)
      else sanitizedCore folder_name) ∧
    sanitize_folder_name folder_name ≠ "" := by
  have hfb : ("Group_" ++ toString (pyHash folder_name % 10000) : String) ≠ "" := by
    intro hc
    have := congrArg String.data hc
    rw [String.data_append] at this
    simp at this
  constructor
  · by_cases h1 : sanitizedCore folder_name = ""
    · simp [sanitize_folder_name, h1]
    · by_cases h2 : 255 < (sanitizedCore folder_name).length
      · simp [sanitize_folder_name, h1, h2]
      · simp [sanitize_folder_name, h1, h2]
  · by_cases h1 : sanitizedCore folder_name = ""
    · simpa [sanitize_folder_name, h1] using hfb
    · by_cases h2 : 255 < (sanitizedCore folder_name).length
      · simp only [sanitize_folder_name]
        simp [h1, h2]
        exact hfb
      · simp [sanitize_folder_name, h1, h2]

/-! ### Claim C5: the fuzzy pass equals its static description -/

/-- The dynamic inner scan of `fuzzyGo` computes, on a duplicate-free list,
exactly the static filter of the claim: the files marked consumed during the
scan never collide with files still to be examined. -/
theorem fuzzyScan_static (threshold : ℚ) (base1 : String) :
    ∀ (rest processed extra cg : List String),
      rest.Nodup → (∀ b ∈ rest, b ∉ extra) →
      rest.foldl (fuzzyScanStep threshold base1) (cg, processed ++ extra) =
        (cg ++ rest.filter (joinFilter threshold base1 processed),
         processed ++ extra ++ rest.filter (joinFilter threshold base1 processed)) := by
  intro rest
  induction rest with
  | nil =>
    intro processed extra cg _ _
    simp
  | cons b rest ih =>
    intro processed extra cg hnd hex
    have hbex : b ∉ extra := hex b (List.mem_cons_self _ _)
    have hnd2 : rest.Nodup := (List.nodup_cons.mp hnd).2
    have hbrest : b ∉ rest := (List.nodup_cons.mp hnd).1
    simp only [List.foldl_cons, List.filter_cons]
    by_cases hbp : b ∈ processed
    · have hstep : fuzzyScanStep threshold base1 (cg, processed ++ extra) b =
          (cg, processed ++ extra) := by
        unfold fuzzyScanStep
        rw [if_pos (by simpa using Or.inl hbp)]
      have hfilt : joinFilter threshold base1 processed b = false := by
        have hc : processed.contains b = true := List.elem_iff.mpr hbp
        simp only [joinFilter, hc, Bool.not_true, Bool.false_and]
      rw [hstep, hfilt]
      simp only [Bool.false_eq_true, if_false]
      exact ih processed extra cg hnd2 (fun x hx => hex x (List.mem_cons_of_mem _ hx))
    · have hbpe : b ∉ processed ++ extra := by
        simp only [List.mem_append]
        rintro (h | h)
        · exact hbp h
        · exact hbex h
      have hcont : processed.contains b = false := by
        cases hcc : processed.contains b
        · rfl
        · exact absurd (List.elem_iff.mp hcc) hbp
      set base2 := get_file_base_name b with hb2
      by_cases hlen : min base1.length base2.length <
          max base1.length base2.length - min base1.length base2.length
      · have hstep : fuzzyScanStep threshold base1 (cg, processed ++ extra) b =
            (cg, processed ++ extra) := by
          unfold fuzzyScanStep
          rw [if_neg hbpe, if_pos hlen]
        have hfilt : joinFilter threshold base1 processed b = false := by
          have h1 : decide (min base1.length base2.length <
              max base1.length base2.length - min base1.length base2.length) = true :=
            decide_eq_true hlen
          simp only [joinFilter, hcont, ← hb2, h1, Bool.not_false, Bool.true_and,
            Bool.not_true, Bool.false_and]
        rw [hstep, hfilt]
        simp only [Bool.false_eq_true, if_false]
        exact ih processed extra cg hnd2 (fun x hx => hex x (List.mem_cons_of_mem _ hx))
      · by_cases hsim : threshold ≤ similarityScore base1 base2
        · have hstep : fuzzyScanStep threshold base1 (cg, processed ++ extra) b =
              (cg ++ [b], (processed ++ extra) ++ [b]) := by
            unfold fuzzyScanStep
            rw [if_neg hbpe, if_neg hlen, if_pos hsim]
          have hfilt : joinFilter threshold base1 processed b = true := by
            have h1 : decide (min base1.length base2.length <
                max base1.length base2.length - min base1.length base2.length) = false :=
              decide_eq_false hlen
            have h2 : decide (threshold ≤ similarityScore base1 base2) = true :=
              decide_eq_true hsim
            simp only [joinFilter, hcont, ← hb2, h1, h2, Bool.not_false, Bool.true_and,
              Bool.and_true, Bool.and_self]
          rw [hstep, hfilt]
          simp only [if_pos]
          have hex2 : ∀ x ∈ rest, x ∉ extra ++ [b] := by
            intro x hx
            simp only [List.mem_append, List.mem_singleton]
            rintro (h | h)
            · exact hex x (List.mem_cons_of_mem _ hx) h
            · exact hbrest (h ▸ hx)
          have := ih processed (extra ++ [b]) (cg ++ [b]) hnd2 hex2
          rw [show (processed ++ extra) ++ [b] = processed ++ (extra ++ [b]) by simp] at hstep ⊢
          rw [this]
          simp
        · have hstep : fuzzyScanStep threshold base1 (cg, processed ++ extra) b =
              (cg, processed ++ extra) := by
            unfold fuzzyScanStep
            rw [if_neg hbpe, if_neg hlen, if_neg hsim]
          have hfilt : joinFilter threshold base1 processed b = false := by
            have h2 : decide (threshold ≤ similarityScore base1 base2) = false :=
              decide_eq_false hsim
            simp only [joinFilter, hcont, ← hb2, h2, Bool.not_false, Bool.true_and,
              Bool.and_false]
          rw [hstep, hfilt]
          simp only [Bool.false_eq_true, if_false]
          exact ih processed extra cg hnd2 (fun x hx => hex x (List.mem_cons_of_mem _ hx))

/-- C5: on a duplicate-free list of unplaced files, the fuzzy pass of
`find_similar_files` coincides with the claim's description: a single greedy
left-to-right pass in which each later not-yet-consumed file B joins A's
cluster exactly when the length prefilter accepts it and the similarity score
is at least the threshold, and A's cluster is emitted exactly when it has at
least two members. -/
theorem C5_fuzzy_pass_is_greedy_static (threshold : ℚ) :
    ∀ (remaining processed : List String) (groups : List (String × List String)),
      remaining.Nodup →
      fuzzyGo threshold remaining processed groups =
        fuzzyPassSpec threshold remaining processed groups := by
  intro remaining
  induction remaining with
  | nil => intro processed groups _; rfl
  | cons file1 rest ih =>
    intro processed groups hnd
    have hnd2 : rest.Nodup := (List.nodup_cons.mp hnd).2
    simp only [fuzzyGo, fuzzyPassSpec]
    by_cases hfp : file1 ∈ processed
    · rw [if_pos hfp, if_pos hfp]
      exact ih processed groups hnd2
    · rw [if_neg hfp, if_neg hfp]
      have hscan := fuzzyScan_static threshold (get_file_base_name file1) rest processed []
        [file1] hnd2 (by simp)
      rw [List.append_nil] at hscan
      set joins := rest.filter
        (joinFilter threshold (get_file_base_name file1) processed) with hjoins
      rw [hscan]
      simp only [List.singleton_append]
      by_cases hlen : 2 ≤ (file1 :: joins).length
      · rw [if_pos hlen, if_pos hlen]
        exact ih (processed ++ joins ++ [file1])
          (alistInsert groups (minString (file1 :: joins)) (file1 :: joins)) hnd2
      · rw [if_neg hlen, if_neg hlen]
        have hjnil : joins = [] := by
          by_contra hc
          rcases List.exists_mem_of_ne_nil joins hc with ⟨x, hx⟩
          rcases List.exists_cons_of_ne_nil hc with ⟨y, ys, hys⟩
          apply hlen
          rw [hys]
          simp
        rw [hjnil, List.append_nil]
        exact ih processed groups hnd2

/-- Concrete instance of the fuzzy-pass theorem at a duplicate-free input. -/
theorem C5_fuzzy_pass_is_greedy_static_witness :
    (["ab.txt", "ac.txt"] : List String).Nodup ∧
    fuzzyGo (7/10) ["ab.txt", "ac.txt"] [] [] =
      fuzzyPassSpec (7/10) ["ab.txt", "ac.txt"] [] [] :=
  ⟨by decide, C5_fuzzy_pass_is_greedy_static (7/10) ["ab.txt", "ac.txt"] [] [] (by decide)⟩

/-! ### Claim C6: minimum group size -/

theorem alistKeys_append {β : Type} (d e : List (String × β)) :
    alistKeys (d ++ e) = alistKeys d ++ alistKeys e := by
  simp [alistKeys_def]

/-- On a list whose keys are pairwise distinct, the deduplication pass is the
identity: every counter stays at 1 and no suffix is ever attached. -/
theorem uniquify_aux :
    ∀ (l : List (String × List String)) (counters : List (String × ℕ))
      (ug : List (String × List String)),
      (∀ e ∈ l, alistLookup counters e.1 = none) →
      (∀ e ∈ l, e.1 ∉ alistKeys ug) →
      (alistKeys l).Nodup →
      (l.foldl uStep (counters, ug)).2 = ug ++ l := by
  intro l
  induction l with
  | nil => intro counters ug _ _ _; simp
  | cons e l ih =>
    intro counters ug hcnt hug hnd
    have hce : alistLookup counters e.1 = none := hcnt e (List.mem_cons_self _ _)
    have hbump : alistLookup (alistBump counters e.1) e.1 = some 1 := by
      rw [alistLookup_alistBump, if_pos rfl, hce]
      rfl
    have hstep : uStep (counters, ug) e = (alistBump counters e.1, ug ++ [e]) := by
      simp only [uStep]
      rw [hbump]
      simp only [Option.getD_some]
      rw [if_neg (by omega : ¬ 1 < 1)]
      rw [alistInsert_of_not_mem_keys ug e.1 e.2 (hug e (List.mem_cons_self _ _))]
    simp only [List.foldl_cons, hstep]
    simp only [alistKeys_def, List.map_cons, List.nodup_cons] at hnd
    have hndl : (alistKeys l).Nodup := hnd.2
    have hne : ∀ e2 ∈ l, e2.1 ≠ e.1 := by
      intro e2 he2 hc
      exact hnd.1 (hc ▸ List.mem_map_of_mem Prod.fst he2)
    have hcnt2 : ∀ e2 ∈ l, alistLookup (alistBump counters e.1) e2.1 = none := by
      intro e2 he2
      rw [alistLookup_alistBump, if_neg (hne e2 he2)]
      exact hcnt e2 (List.mem_cons_of_mem _ he2)
    have hug2 : ∀ e2 ∈ l, e2.1 ∉ alistKeys (ug ++ [e]) := by
      intro e2 he2
      rw [alistKeys_append]
      simp only [List.mem_append]
      rintro (h | h)
      · exact hug e2 (List.mem_cons_of_mem _ he2) h
      · simp only [alistKeys_def, List.map_cons, List.map_nil, List.mem_singleton] at h
        exact hne e2 he2 h
    rw [ih (alistBump counters e.1) (ug ++ [e]) hcnt2 hug2 hndl]
    simp

theorem uniquify_eq_self (l : List (String × List String))
    (h : (alistKeys l).Nodup) : uniquify l = l := by
  unfold uniquify
  rw [uniquify_aux l [] [] (by intro e _; rfl) (by intro e _ hc; simp [alistKeys_def] at hc) h]
  simp

theorem insertByDesc_perm {α : Type} (keyLt : α → α → Bool) (x : α) :
    ∀ l : List α, (insertByDesc keyLt x l).Perm (x :: l) := by
  intro l
  induction l with
  | nil => simp [insertByDesc]
  | cons y ys ih =>
    unfold insertByDesc
    split
    · exact List.Perm.refl _
    · exact (ih.cons y).trans (List.Perm.swap x y ys)

theorem sortByDesc_perm {α : Type} (keyLt : α → α → Bool) (l : List α) :
    (sortByDesc keyLt l).Perm l := by
  have aux : ∀ (l acc : List α),
      (l.foldl (fun acc x => insertByDesc keyLt x acc) acc).Perm (acc ++ l) := by
    intro l
    induction l with
    | nil => intro acc; simp
    | cons x l ih =>
      intro acc
      simp only [List.foldl_cons]
      refine (ih (insertByDesc keyLt x acc)).trans ?_
      refine (List.Perm.append_right l (insertByDesc_perm keyLt x acc)).trans ?_
      exact (List.perm_middle).symm
  simpa using aux l []

/-- The group names of `finalgOf` have pairwise distinct keys (it is built by
dictionary assignment). -/
theorem finalgOf_keys_nodup (file_names : List String) (min_pattern_length : ℕ)
    (threshold : ℚ) (max_groups min_files_per_group : ℕ) :
    (alistKeys (finalgOf file_names min_pattern_length threshold max_groups
      min_files_per_group)).Nodup := by
  unfold finalgOf
  refine foldl_preserve _ (fun d => (alistKeys d).Nodup) ?_ _ []
    (by simp [alistKeys_def])
  intro sg e hsg
  split
  · exact alistKeys_alistInsert_nodup _ _ _ hsg
  · exact hsg

theorem finalg2Of_keys_nodup (file_names : List String) (min_pattern_length : ℕ)
    (threshold : ℚ) (max_groups min_files_per_group : ℕ) :
    (alistKeys (finalg2Of file_names min_pattern_length threshold max_groups
      min_files_per_group)).Nodup := by
  simp only [finalg2Of]
  split
  · exact finalgOf_keys_nodup _ _ _ _ _
  · exact alistKeys_alistInsert_nodup _ _ _ (finalgOf_keys_nodup _ _ _ _ _)

theorem sortByLenDesc_keys_nodup (l : List (String × List String))
    (h : (alistKeys l).Nodup) : (alistKeys (sortByLenDesc l)).Nodup := by
  have hperm : (sortByLenDesc l).Perm l := sortByDesc_perm _ l
  have := (hperm.map Prod.fst).nodup_iff
  simp only [alistKeys_def] at h ⊢
  exact this.mpr h

/-- The mapping `groupPlan` is the size-sorted `final_groups` unchanged: the suffixing
pass never fires because dictionary keys are already unique. -/
theorem groupPlan_eq_sorted (file_names : List String) (min_pattern_length : ℕ)
    (threshold : ℚ) (max_groups min_files_per_group : ℕ) :
    groupPlan file_names min_pattern_length threshold max_groups min_files_per_group =
      sortByLenDesc (finalg2Of file_names min_pattern_length threshold max_groups
        min_files_per_group) := by
  unfold groupPlan
  exact uniquify_eq_self _ (sortByLenDesc_keys_nodup _
    (finalg2Of_keys_nodup _ _ _ _ _))

/-- Every entry of `finalgOf` passed the minimum-size filter. -/
theorem finalgOf_min_size (file_names : List String) (min_pattern_length : ℕ)
    (threshold : ℚ) (max_groups min_files_per_group : ℕ) (g : String) (v : List String)
    (hgv : (g, v) ∈ finalgOf file_names min_pattern_length threshold max_groups
      min_files_per_group) : min_files_per_group ≤ v.length := by
  unfold finalgOf at hgv
  have := mem_foldl_of_step _
    (fun (e : String × List String) (p : String × List String) =>
      min_files_per_group ≤ e.2.length ∧ p.2 = e.2) ?_ _ [] _ hgv
  · rcases this with h | ⟨e, _, hlen, hv⟩
    · simp at h
    · rw [show v = (g, v).2 from rfl, hv]
      exact hlen
  · intro sg e p hp
    split at hp
    · rename_i hlen
      rcases mem_alistInsert _ _ _ _ hp with h | h
      · exact Or.inr ⟨hlen, by rw [h]⟩
      · exact Or.inl h
    · exact Or.inl hp

/-- C6: no group other than the catch-all ever appears in the final mapping
with fewer than `min_files_per_group` files: undersized fuzzy or pattern
clusters are filtered out before naming, so their members can only fall
through to later stages or to `Miscellaneous`. -/
theorem C6_min_size_enforced (file_names : List String) (min_pattern_length : ℕ)
    (threshold : ℚ) (max_groups min_files_per_group : ℕ) (g : String) (v : List String)
    (hgv : (g, v) ∈ groupPlan file_names min_pattern_length threshold max_groups
      min_files_per_group)
    (hg : g ≠ "Miscellaneous") : min_files_per_group ≤ v.length := by
  rw [groupPlan_eq_sorted] at hgv
  have hgv2 : (g, v) ∈ finalg2Of file_names min_pattern_length threshold max_groups
      min_files_per_group := (sortByDesc_perm _ _).mem_iff.mp hgv
  have hgv3 : (g, v) ∈ finalgOf file_names min_pattern_length threshold max_groups
      min_files_per_group := by
    simp only [finalg2Of] at hgv2
    split at hgv2
    · exact hgv2
    · rcases mem_alistInsert _ _ _ _ hgv2 with h | h
      · exact absurd (congrArg Prod.fst h) hg
      · exact h
  exact finalgOf_min_size _ _ _ _ _ _ _ hgv3

/-- Concrete instance of the minimum-size theorem. -/
theorem C6_min_size_enforced_witness :
    (("Ab1", ["ab1.txt", "ab2.txt"]) ∈ groupPlan ["ab1.txt", "ab2.txt"] 3 (7/10) 50 2 ∧
      ("Ab1" : String) ≠ "Miscellaneous") ∧
    2 ≤ (["ab1.txt", "ab2.txt"] : List String).length :=
  ⟨⟨by decide, by decide⟩,
    C6_min_size_enforced ["ab1.txt", "ab2.txt"] 3 (7/10) 50 2 "Ab1"
      ["ab1.txt", "ab2.txt"] (by decide) (by decide)⟩

/-! ### Claim C2: idempotence of the name normalizer -/

/-- C10 counterexample: on this input every file is placed in a surviving
cluster (the leftover list is empty), yet the final mapping does contain the
key `"Miscellaneous"` — the cluster's own generated name is exactly that
string. -/
theorem C10_counterexample_misc_named_cluster :
    miscOf ["miscellaneous1.txt", "miscellaneous2.txt"] 3 (7/10) 50 2 = [] ∧
    "Miscellaneous" ∈
      (groupPlan ["miscellaneous1.txt", "miscellaneous2.txt"] 3 (7/10) 50 2).map
        Prod.fst :=
  ⟨by decide, by decide⟩

/-- C10 (amended): the catch-all entry is added only when the leftover list
is non-empty; consequently, when every file is placed in a surviving group
and no surviving group's own sanitized name is `"Miscellaneous"`, the final
mapping contains no `"Miscellaneous"` key. -/
theorem C10_no_misc_key_when_all_placed (file_names : List String)
    (min_pattern_length : ℕ) (threshold : ℚ) (max_groups min_files_per_group : ℕ)
    (hmisc : miscOf file_names min_pattern_length threshold max_groups
      min_files_per_group = [])
    (hnames : ∀ e ∈ finalgOf file_names min_pattern_length threshold max_groups
      min_files_per_group, e.1 ≠ "Miscellaneous") :
    "Miscellaneous" ∉
      (groupPlan file_names min_pattern_length threshold max_groups
        min_files_per_group).map Prod.fst := by
  rw [groupPlan_eq_sorted]
  have h2 : finalg2Of file_names min_pattern_length threshold max_groups
      min_files_per_group = finalgOf file_names min_pattern_length threshold max_groups
      min_files_per_group := by
    simp only [finalg2Of, hmisc]
    rfl
  intro hc
  rcases List.mem_map.mp hc with ⟨e, he, hee⟩
  have he2 : e ∈ finalgOf file_names min_pattern_length threshold max_groups
      min_files_per_group := by
    rw [← h2]
    exact (sortByDesc_perm _ _).mem_iff.mp he
  exact hnames e he2 hee

/-- Concrete instance of the amended claim. -/
theorem C10_no_misc_key_when_all_placed_witness :
    (miscOf ["ab1.txt", "ab2.txt"] 3 (7/10) 50 2 = [] ∧
      ∀ e ∈ finalgOf ["ab1.txt", "ab2.txt"] 3 (7/10) 50 2, e.1 ≠ "Miscellaneous") ∧
    "Miscellaneous" ∉ (groupPlan ["ab1.txt", "ab2.txt"] 3 (7/10) 50 2).map Prod.fst :=
  ⟨⟨by decide, by decide⟩,
    C10_no_misc_key_when_all_placed ["ab1.txt", "ab2.txt"] 3 (7/10) 50 2
      (by decide) (by decide)⟩

/-! ### Claim C7: pattern scoring and ordering -/

theorem insertByDesc_pairwise {α : Type} (keyLt : α → α → Bool)
    (hirr : ∀ a, keyLt a a = false)
    (htrans : ∀ x y z, keyLt y x = true → keyLt y z = false → keyLt x z = false)
    (x : α) : ∀ l : List α, l.Pairwise (fun a b => keyLt a b = false) →
      (insertByDesc keyLt x l).Pairwise (fun a b => keyLt a b = false) := by
  intro l
  induction l with
  | nil => intro _; simp [insertByDesc]
  | cons y ys ih =>
    intro h
    rw [List.pairwise_cons] at h
    unfold insertByDesc
    by_cases hxy : keyLt y x = true
    · rw [if_pos hxy, List.pairwise_cons]
      constructor
      · intro z hz
        rcases List.mem_cons.mp hz with h1 | h1
        · rw [h1]
          exact htrans x y y hxy (hirr y)
        · exact htrans x y z hxy (h.1 z h1)
      · exact List.pairwise_cons.mpr ⟨h.1, h.2⟩
    · rw [if_neg hxy, List.pairwise_cons]
      simp only [Bool.not_eq_true] at hxy
      constructor
      · intro z hz
        rcases List.mem_cons.mp ((insertByDesc_perm keyLt x ys).mem_iff.mp hz) with h1 | h1
        · rw [h1]
          exact hxy
        · exact h.1 z h1
      · exact ih h.2

theorem sortByDesc_pairwise {α : Type} (keyLt : α → α → Bool)
    (hirr : ∀ a, keyLt a a = false)
    (htrans : ∀ x y z, keyLt y x = true → keyLt y z = false → keyLt x z = false)
    (l : List α) :
    (sortByDesc keyLt l).Pairwise (fun a b => keyLt a b = false) := by
  have aux : ∀ (l acc : List α), acc.Pairwise (fun a b => keyLt a b = false) →
      (l.foldl (fun acc x => insertByDesc keyLt x acc) acc).Pairwise
        (fun a b => keyLt a b = false) := by
    intro l
    induction l with
    | nil => intro acc h; exact h
    | cons x l ih =>
      intro acc h
      exact ih _ (insertByDesc_pairwise keyLt hirr htrans x acc h)
  exact aux l [] (by simp)

theorem mem_alistBump (d : List (String × ℕ)) (q : String) (k : String) (c : ℕ)
    (h : (k, c) ∈ alistBump d q) : k = q ∨ (k, c) ∈ d := by
  induction d with
  | nil =>
    simp only [alistBump, List.mem_singleton] at h
    exact Or.inl (congrArg Prod.fst h)
  | cons p d ih =>
    by_cases hp : p.1 = q
    · simp only [alistBump, if_pos hp] at h
      rcases List.mem_cons.mp h with h1 | h1
      · exact Or.inl ((congrArg Prod.fst h1).trans hp)
      · exact Or.inr (List.mem_cons_of_mem _ h1)
    · simp only [alistBump, if_neg hp] at h
      rcases List.mem_cons.mp h with h1 | h1
      · exact Or.inr (h1 ▸ List.mem_cons_self _ _)
      · rcases ih h1 with h2 | h2
        · exact Or.inl h2
        · exact Or.inr (List.mem_cons_of_mem _ h2)

theorem mem_alistKeys_alistBump (d : List (String × ℕ)) (q k : String) :
    k ∈ alistKeys (alistBump d q) ↔ k ∈ alistKeys d ∨ k = q := by
  simp only [alistKeys_def]
  induction d with
  | nil => simp [alistBump]
  | cons p d ih =>
    simp only [alistBump]
    by_cases hp : p.1 = q
    · rw [if_pos hp]
      simp only [List.map_cons, List.mem_cons]
      rw [hp]
      tauto
    · rw [if_neg hp]
      simp only [List.map_cons, List.mem_cons]
      rw [ih]
      tauto

theorem alistKeys_alistBump_nodup (d : List (String × ℕ)) (q : String)
    (h : (alistKeys d).Nodup) : (alistKeys (alistBump d q)).Nodup := by
  induction d with
  | nil => simp [alistBump, alistKeys_def]
  | cons p d ih =>
    simp only [alistKeys_def, List.map_cons, List.nodup_cons] at h
    simp only [alistBump]
    by_cases hp : p.1 = q
    · rw [if_pos hp]
      simpa [alistKeys_def] using h
    · rw [if_neg hp]
      simp only [alistKeys_def, List.map_cons, List.nodup_cons]
      refine ⟨fun hc => ?_, ih h.2⟩
      rcases (mem_alistKeys_alistBump d q p.1).mp hc with hc2 | hc2
      · exact h.1 hc2
      · exact hp hc2

/-- Keys reachable by a fold of counter bumps. -/
theorem mem_foldl_alistBump {γ : Type} (g : γ → String) :
    ∀ (ps : List γ) (d : List (String × ℕ)) (k : String) (c : ℕ),
      (k, c) ∈ ps.foldl (fun d x => alistBump d (g x)) d →
      k ∈ alistKeys d ∨ ∃ x ∈ ps, k = g x := by
  intro ps
  induction ps with
  | nil =>
    intro d k c h
    exact Or.inl (List.mem_map_of_mem Prod.fst h)
  | cons x ps ih =>
    intro d k c h
    rcases ih (alistBump d (g x)) k c h with h1 | ⟨y, hy, hgy⟩
    · simp only [alistKeys_def] at h1
      rcases List.mem_map.mp h1 with ⟨⟨k2, c2⟩, hk2, hk2e⟩
      rcases mem_alistBump d (g x) k2 c2 hk2 with h2 | h2
      · exact Or.inr ⟨x, List.mem_cons_self _ _, hk2e ▸ h2⟩
      · exact Or.inl (hk2e ▸ List.mem_map_of_mem Prod.fst h2)
    · exact Or.inr ⟨y, List.mem_cons_of_mem _ hy, hgy⟩

theorem chainText_head (t0 s0 : List Char) (rest : List (List Char × List Char)) :
    ∃ r, chainText ((t0, s0) :: rest) = t0 ++ r := by
  cases rest with
  | nil => exact ⟨[], by simp [chainText]⟩
  | cons q qs => exact ⟨s0 ++ chainText (q :: qs), by simp [chainText]⟩

/-- Every match emitted by `chainScan` starts with a token accepted by
`start`. -/
theorem chainScan_start (pureSep : Char → Bool) (start : List Char → Bool) (maxT : ℕ) :
    ∀ (toks chain : List (List Char × List Char)),
      (∀ t0 s0 pre, chain.reverse = (t0, s0) :: pre → start t0 = true) →
      ∀ x ∈ chainScan pureSep start maxT chain toks,
        ∃ t0 r, x = t0 ++ r ∧ start t0 = true := by
  intro toks
  induction toks with
  | nil =>
    intro chain hinv x hx
    simp only [chainScan] at hx
    split at hx
    · rcases List.mem_singleton.mp hx with hxe
      rename_i hlen
      have hne : chain ≠ [] := by
        intro hz
        rw [hz] at hlen
        simp at hlen
      have hrne : chain.reverse ≠ [] := by simpa using hne
      rcases List.exists_cons_of_ne_nil hrne with ⟨⟨t0, s0⟩, pre, hcons⟩
      rcases chainText_head t0 s0 pre with ⟨r, hr⟩
      exact ⟨t0, r, by rw [hxe, hcons, hr], hinv t0 s0 pre hcons⟩
    · simp at hx
  | cons ts toks ih =>
    intro chain hinv x hx
    obtain ⟨t, sep⟩ := ts
    simp only [chainScan] at hx
    by_cases hce : chain.isEmpty
    · rw [if_pos hce] at hx
      have hchain : chain = [] := by
        cases chain
        · rfl
        · simp at hce
      split at hx
      · rename_i hstart
        split at hx
        · refine ih [(t, sep)] ?_ x hx
          intro t0 s0 pre hpre
          simp only [List.reverse_singleton, List.cons.injEq] at hpre
          rw [← (Prod.mk.injEq _ _ _ _).mp hpre.1 |>.1]
          exact hstart
        · exact ih [] (by intro t0 s0 pre hpre; simp at hpre) x hx
      · exact ih [] (by intro t0 s0 pre hpre; simp at hpre) x hx
    · rw [if_neg hce] at hx
      split at hx
      · refine ih ((t, sep) :: chain) ?_ x hx
        intro t0 s0 pre hpre
        rw [List.reverse_cons] at hpre
        have hne : chain ≠ [] := by
          intro hz
          rw [hz] at hce
          simp at hce
        have hrne : chain.reverse ≠ [] := by simpa using hne
        rcases List.exists_cons_of_ne_nil hrne with ⟨⟨t1, s1⟩, pre1, hcons1⟩
        rw [hcons1] at hpre
        simp only [List.cons_append, List.cons.injEq] at hpre
        rw [← (Prod.mk.injEq _ _ _ _).mp hpre.1 |>.1]
        exact hinv t1 s1 pre1 hcons1
      · rcases List.mem_append.mp hx with h1 | h1
        · split at h1
          · rcases List.mem_singleton.mp h1 with hxe
            have hne : chain ≠ [] := by
              intro hz
              rw [hz] at hce
              simp at hce
            have hrne : chain.reverse ≠ [] := by simpa using hne
            rcases List.exists_cons_of_ne_nil hrne with ⟨⟨t1, s1⟩, pre1, hcons1⟩
            rw [List.reverse_cons, hcons1] at hxe
            rcases chainText_head t1 s1 (pre1 ++ [(t, sep)]) with ⟨r, hr⟩
            refine ⟨t1, r, ?_, hinv t1 s1 pre1 hcons1⟩
            rw [hxe]
            simpa using hr
          · simp at h1
        · exact ih [] (by intro t0 s0 pre hpre; simp at hpre) x h1

/-- Every sequence-regex match is at least `n` characters long (its first
segment already is). -/
theorem seqScan_length (n : ℕ) (toks : List (List Char × List Char))
    (x : List Char) (hx : x ∈ seqScan n toks) : n ≤ x.length := by
  unfold seqScan at hx
  rcases chainScan_start isSeqSep (fun t => decide (n ≤ t.length)) 4 toks []
    (by intro t0 s0 pre hpre; simp at hpre) x hx with ⟨t0, r, hxe, hst⟩
  rw [hxe]
  have : n ≤ t0.length := by simpa using hst
  simp only [List.length_append]
  omega

/-- Every candidate accumulated by `patternsDict` has length at least the
minimum pattern length. -/
theorem patternsDict_len (file_names : List String) (min_length : ℕ) :
    ∀ p c, (p, c) ∈ patternsDict file_names min_length → min_length ≤ p.length := by
  have inv : ∀ (fns : List String) (d : List (String × ℕ)),
      (∀ p c, (p, c) ∈ d → min_length ≤ p.length) →
      ∀ p c, (p, c) ∈ fns.foldl (fun d name =>
        let base := lowerL (splitextBaseL name.data)
        let wordToks := tokenRuns isWordChar base
        let words := (wordToks.map Prod.fst).filter (fun t => min_length ≤ t.length)
        let d1 := words.foldl (fun d w => alistBump d (String.mk w)) d
        let phrases := (phraseScan wordToks).filter (fun p => min_length ≤ p.length)
        let d2 := phrases.foldl (fun d p => alistBump d (String.mk p)) d1
        let seqs := seqScan min_length (tokenRuns isSeqChar base)
        seqs.foldl (fun d q => alistBump d (String.mk q)) d2) d →
        min_length ≤ p.length := by
    intro fns
    induction fns with
    | nil => intro d hd p c h; exact hd p c h
    | cons name fns ih =>
      intro d hd p c h
      simp only [List.foldl_cons] at h
      refine ih _ ?_ p c h
      intro p2 c2 h2
      rcases mem_foldl_alistBump String.mk _ _ _ _ h2 with h3 | ⟨x, hx, hgx⟩
      · simp only [alistKeys_def] at h3
        rcases List.mem_map.mp h3 with ⟨⟨k3, c3⟩, hk3, hk3e⟩
        rcases mem_foldl_alistBump String.mk _ _ _ _ hk3 with h4 | ⟨y, hy, hgy⟩
        · simp only [alistKeys_def] at h4
          rcases List.mem_map.mp h4 with ⟨⟨k4, c4⟩, hk4, hk4e⟩
          rcases mem_foldl_alistBump String.mk _ _ _ _ hk4 with h5 | ⟨z, hz, hgz⟩
          · simp only [alistKeys_def] at h5
            rcases List.mem_map.mp h5 with ⟨⟨k5, c5⟩, hk5, hk5e⟩
            have := hd k5 c5 hk5
            simp only [← hk3e, ← hk4e, ← hk5e]
            exact this
          · simp only [← hk3e, ← hk4e, hgz]
            have hzf := List.mem_filter.mp hz
            have : min_length ≤ z.length := by simpa using hzf.2
            simpa using this
        · simp only [← hk3e, hgy]
          have hyf := List.mem_filter.mp hy
          have : min_length ≤ y.length := by simpa using hyf.2
          simpa using this
      · rw [hgx]
        have := seqScan_length min_length _ x hx
        simpa using this
  intro p c h
  exact inv file_names [] (by intro p2 c2 h2; simp at h2) p c h

theorem patternsDict_keys_nodup (file_names : List String) (min_length : ℕ) :
    (alistKeys (patternsDict file_names min_length)).Nodup := by
  unfold patternsDict
  refine foldl_preserve _ (fun d => (alistKeys d).Nodup) ?_ _ []
    (by simp [alistKeys_def])
  intro d name hd
  refine foldl_preserve _ (fun d => (alistKeys d).Nodup) ?_ _ _
    (foldl_preserve _ (fun d => (alistKeys d).Nodup) ?_ _ _
      (foldl_preserve _ (fun d => (alistKeys d).Nodup) ?_ _ _ hd))
  all_goals intro d2 w hd2
  all_goals exact alistKeys_alistBump_nodup d2 _ hd2

/-- Membership in the score-accumulation fold. -/
theorem mem_scores_fold {α β : Type} (P : α → Prop) [DecidablePred P] (g : α → β) :
    ∀ (l : List α) (init : List β) (x : β),
      x ∈ l.foldl (fun acc e => if P e then acc ++ [g e] else acc) init ↔
        x ∈ init ∨ ∃ e ∈ l, P e ∧ x = g e := by
  intro l
  induction l with
  | nil => intro init x; simp
  | cons e l ih =>
    intro init x
    simp only [List.foldl_cons]
    by_cases hP : P e
    · rw [if_pos hP, ih]
      constructor
      · rintro (h | ⟨e2, he2, hp2, hx⟩)
        · rcases List.mem_append.mp h with h1 | h1
          · exact Or.inl h1
          · exact Or.inr ⟨e, List.mem_cons_self _ _, hP, List.mem_singleton.mp h1⟩
        · exact Or.inr ⟨e2, List.mem_cons_of_mem _ he2, hp2, hx⟩
      · rintro (h | ⟨e2, he2, hp2, hx⟩)
        · exact Or.inl (List.mem_append.mpr (Or.inl h))
        · rcases List.mem_cons.mp he2 with h2 | h2
          · refine Or.inl (List.mem_append.mpr (Or.inr ?_))
            rw [hx, h2]
            exact List.mem_singleton.mpr rfl
          · exact Or.inr ⟨e2, h2, hp2, hx⟩
    · rw [if_neg hP, ih]
      constructor
      · rintro (h | ⟨e2, he2, hp2, hx⟩)
        · exact Or.inl h
        · exact Or.inr ⟨e2, List.mem_cons_of_mem _ he2, hp2, hx⟩
      · rintro (h | ⟨e2, he2, hp2, hx⟩)
        · exact Or.inl h
        · rcases List.mem_cons.mp he2 with h2 | h2
          · exact absurd (h2 ▸ hp2) hP
          · exact Or.inr ⟨e2, h2, hp2, hx⟩

/-- C7: in `extract_common_patterns`, candidates seen fewer than twice are
discarded, every returned pair carries the relevance
`(len/20) * min(count/num_files, 1/2) * count` of its accumulated count, every
candidate with count at least 2 is returned, and the result is sorted by
non-increasing relevance. The hypothesis `1 ≤ min_length` matches the
parameter's documented domain (the word regex `\w{n,}` is only modelled for
positive `n`). -/
theorem C7_pattern_relevance_scoring (file_names : List String) (min_length : ℕ)
    (hmin : 1 ≤ min_length) :
    (extract_common_patterns file_names min_length).Pairwise
      (fun x y => y.2 ≤ x.2) ∧
    (∀ p s, (p, s) ∈ extract_common_patterns file_names min_length →
      2 ≤ patternCount file_names min_length p ∧
      s = relevanceScore p.length (patternCount file_names min_length p)
        file_names.length) ∧
    (∀ p c, (p, c) ∈ patternsDict file_names min_length → 2 ≤ c →
      (p, relevanceScore p.length c file_names.length) ∈
        extract_common_patterns file_names min_length) := by
  have hcount : ∀ p c, (p, c) ∈ patternsDict file_names min_length →
      patternCount file_names min_length p = c := by
    intro p c hpc
    unfold patternCount
    rw [(alistLookup_eq_some_iff_mem _ (patternsDict_keys_nodup file_names min_length)
      p c).mpr hpc]
    rfl
  have hmem : ∀ p s, (p, s) ∈ extract_common_patterns file_names min_length ↔
      ∃ e ∈ patternsDict file_names min_length,
        (2 ≤ e.2 ∧ min_length ≤ e.1.length) ∧
        (p, s) = (e.1, relevanceScore e.1.length e.2 file_names.length) := by
    intro p s
    unfold extract_common_patterns
    rw [(sortByDesc_perm _ _).mem_iff, mem_scores_fold]
    simp
  refine ⟨?_, ?_, ?_⟩
  · have hpw := sortByDesc_pairwise (fun x y : String × ℚ => decide (x.2 < y.2))
      (by intro a; simp) ?_ ((patternsDict file_names min_length).foldl (fun acc e =>
        if 2 ≤ e.2 ∧ min_length ≤ e.1.length then
          acc ++ [(e.1, relevanceScore e.1.length e.2 file_names.length)]
        else acc) [])
    · refine List.Pairwise.imp ?_ hpw
      intro a b hab
      have : ¬ (a.2 < b.2) := by simpa using hab
      exact le_of_not_lt this
    · intro x y z h1 h2
      simp only [decide_eq_true_eq] at h1
      simp only [decide_eq_false_iff_not] at h2 ⊢
      intro hc
      exact h2 (lt_trans h1 hc)
  · intro p s hps
    rcases (hmem p s).mp hps with ⟨e, he, ⟨hcnt, _⟩, hpe⟩
    have hp1 : p = e.1 := congrArg Prod.fst hpe
    have hs1 : s = relevanceScore e.1.length e.2 file_names.length := congrArg Prod.snd hpe
    have hce : patternCount file_names min_length p = e.2 := by
      rw [hp1]
      exact hcount e.1 e.2 (by simpa using he)
    rw [hce]
    exact ⟨hcnt, by rw [hs1, hp1]⟩
  · intro p c hpc hc
    refine (hmem p (relevanceScore p.length c file_names.length)).mpr ?_
    exact ⟨(p, c), hpc, ⟨hc, patternsDict_len file_names min_length p c hpc⟩, rfl⟩

/-- Concrete instance of the scoring theorem. -/
theorem C7_pattern_relevance_scoring_witness :
    1 ≤ 3 ∧
    ((extract_common_patterns ["abc def.txt", "abc ghi.txt"] 3).Pairwise
      (fun x y => y.2 ≤ x.2) ∧
    (∀ p s, (p, s) ∈ extract_common_patterns ["abc def.txt", "abc ghi.txt"] 3 →
      2 ≤ patternCount ["abc def.txt", "abc ghi.txt"] 3 p ∧
      s = relevanceScore p.length (patternCount ["abc def.txt", "abc ghi.txt"] 3 p)
        (["abc def.txt", "abc ghi.txt"] : List String).length) ∧
    (∀ p c, (p, c) ∈ patternsDict ["abc def.txt", "abc ghi.txt"] 3 → 2 ≤ c →
      (p, relevanceScore p.length c (["abc def.txt", "abc ghi.txt"] : List String).length) ∈
        extract_common_patterns ["abc def.txt", "abc ghi.txt"] 3)) :=
  ⟨by decide, C7_pattern_relevance_scoring ["abc def.txt", "abc ghi.txt"] 3 (by decide)⟩

end FileOrg
